import Mathlib

/-!
# Verification of the bpf-profile trace-to-callgrind conversion core

Shallow embedding of `src/gen/profile.rs` and `src/gen/resolver.rs` from the
bpf-profile repository: the call-stack accumulator, the function registry,
the line-driven parse loop and the callgrind serializer, together with the
name resolver.

The Rust source models the active call chain as a root (`GROUND_ZERO`) frame
that owns a linked chain of `Call` frames through `callee : Box<Option<Call>>`,
each frame owning at most one child; the unique childless frame is the
innermost one.  We embed that chain as a `List Call` whose head is the root
frame and whose last element is the innermost frame; every recursive walk of
the Rust code becomes a structural recursion on the list, branch for branch.

Machine integers (`usize` counters, addresses) are embedded as `Nat`:
the counters only ever grow by one per trace line, so overflow is not
reachable for any realistic trace and is not modelled.

`Call::pop_call`'s `assert!` and the two registry `expect`s are embedded as
distinguished error values of `GenError`; Rust panics become `Except.error`.
-/

namespace BpfProfile

/-- Address of a function in the trace (`crate::config::Address`). -/
abbrev Address := Nat

/-- Program counter of an instruction (`crate::config::ProgramCounter`). -/
abbrev ProgramCounter := Nat

/-- Modelled from the spec: `crate::config::GROUND_ZERO` (the file defining it
is not under `src/`).  A reserved sentinel address for the root frame,
"a reserved constant, never passed to the Name Resolver, always present". -/
def GROUND_ZERO : Address := 2 ^ 64 - 1

/-- Modelled from the spec: `crate::config::Map` (the file defining it is not
under `src/`).  Per the spec the registry iterates "in registry insertion
order" and statistics group "in first-seen callee address order", so `Map` is
an insertion-ordered map; we embed it as an association list where `insert`
overwrites an existing key in place and appends a fresh key at the end. -/
abbrev Map (α β : Type) := List (α × β)

/-- Lookup in an insertion-ordered map (first matching key wins). -/
def Map.get? {α β : Type} [DecidableEq α] : Map α β → α → Option β
  | [], _ => none
  | (k', v') :: rest, k => if k' = k then some v' else Map.get? rest k

/-- Key-membership test of an insertion-ordered map. -/
def Map.contains_key {α β : Type} [DecidableEq α] : Map α β → α → Bool
  | [], _ => false
  | (k', _) :: rest, k => if k' = k then true else Map.contains_key rest k

/-- Insertion into an insertion-ordered map: an existing key keeps its
position, a fresh key goes to the end. -/
def Map.insert {α β : Type} [DecidableEq α] : Map α β → α → β → Map α β
  | [], k, v => [(k, v)]
  | (k', v') :: rest, k, v =>
    if k' = k then (k, v) :: rest else (k', v') :: Map.insert rest k v

/-- Index into the resolver's list of function names (`crate::config::Index`). -/
abbrev Index := Nat

/-- `Resolver` of `src/gen/resolver.rs`: maps addresses to display names,
unifying multiple load copies of one function through the program counter of
its first instruction. -/
structure Resolver where
  not_default : Bool := false
  functions : List String := []
  index_function_by_address : Map Address Index := []
  index_function_by_first_pc : Map ProgramCounter Index := []
  unresolved_counter : Nat := 0
  deriving Repr, DecidableEq, Inhabited

/-- Hexadecimal rendering of a `Nat`, as Rust's `format!("{:x}", n)`. -/
def hex_str (n : Nat) : String := String.mk (Nat.toDigits 16 n)

/-- `Resolver::contains_function_with_first_pc`. -/
def Resolver.contains_function_with_first_pc (r : Resolver)
    (first_pc : ProgramCounter) : Bool :=
  Map.contains_key r.index_function_by_first_pc first_pc

/-- `Resolver::update_first_pc_index`: registers a new function name under a
first-instruction program counter and returns its index. -/
def Resolver.update_first_pc_index (r : Resolver) (name : String)
    (first_pc : ProgramCounter) : Index × Resolver :=
  let func_index := r.functions.length
  (func_index,
    { r with
      functions := r.functions ++ [name]
      index_function_by_first_pc :=
        Map.insert r.index_function_by_first_pc first_pc func_index })

/-- `Resolver::update`: resolves an address to a name, creating a synthetic
`function_<n> (0x<address>)` entry for an unseen address, and unifying two
addresses that share a first-instruction program counter.  The source's
`assert_ne!(address, GROUND_ZERO)` is a caller-side precondition (the
profile's registry guard never resolves the root sentinel); it appears as a
hypothesis of the theorems about this function. -/
def Resolver.update (r : Resolver) (address : Address)
    (first_pc : ProgramCounter) : String × Resolver :=
  let r :=
    if Map.contains_key r.index_function_by_address address then r
    else if r.contains_function_with_first_pc first_pc then
      -- There can be multiple copies of one function with different addresses
      let func_index :=
        (Map.get? r.index_function_by_first_pc first_pc).getD 0
      { r with
        index_function_by_address :=
          Map.insert r.index_function_by_address address func_index }
    else
      let unresolved_func_name :=
        "function_" ++ toString r.unresolved_counter ++ " (0x" ++ hex_str address ++ ")"
      let r := { r with unresolved_counter := r.unresolved_counter + 1 }
      let (func_index, r) := r.update_first_pc_index unresolved_func_name first_pc
      { r with
        index_function_by_address :=
          Map.insert r.index_function_by_address address func_index }
  let func_index := (Map.get? r.index_function_by_address address).getD 0
  (r.functions.getD func_index "", r)

/-- Modelled from the spec: the result of the external Line Classifier
(`Instruction::parse` of `src/gen/trace.rs`, which is not under `src/`) for
one raw trace line: a `Call` with its program counter and target address, an
`Exit`, an `Other` instruction, a `Skip` signal for non-instruction lines
(blank lines at end of file included), or a classification failure. -/
inductive LineClass where
  | call (pc : ProgramCounter) (target : Address)
  | exit
  | other (pc : ProgramCounter)
  | skip
  | fail
  deriving Repr, DecidableEq

/-- Errors of the conversion, restricted to those reachable from the embedded
code.  `traceSkipped` is `Error::TraceSkipped`; `traceParsing` stands for any
classification failure; the three `panic…` values embed the source's
`assert!`/`expect` panics. -/
inductive GenError where
  | traceSkipped
  | traceParsing
  | panicEmptyStack
  | panicAddrNotFound
  | panicCallerNotFound
  deriving Repr, DecidableEq

/-- One frame of the active call chain (`Call` of `src/gen/profile.rs`,
without its `callee` link, which the enclosing `List` represents). -/
structure Call where
  address : Address
  caller : Address
  cost : Nat
  depth : Nat
  deriving Repr, DecidableEq

/-- `Call::new`: fresh frame for an address (`caller` is `Address::default()`,
cost and depth zero). -/
def Call.new (address : Address) : Call :=
  { address := address, caller := 0, cost := 0, depth := 0 }

/-- `Call::is_ground`. -/
def Call.is_ground (c : Call) : Bool := c.address == GROUND_ZERO

/-- The active chain: root frame first, innermost frame last. -/
abbrev Chain := List Call

/-- `Function` of `src/gen/profile.rs`: one registry record, with its
exclusive cost and the completed calls it made. -/
structure Function where
  address : Address
  name : String
  pc : ProgramCounter
  cost : Nat
  calls : List Call
  deriving Repr, DecidableEq

/-- The function registry (`type Functions = Map<Address, Function>`). -/
abbrev Functions := Map Address Function

/-- `Function::ground_zero`: the root sentinel record. -/
def Function.ground_zero : Function :=
  { address := GROUND_ZERO, name := "GROUND_ZERO", pc := 0, cost := 0, calls := [] }

/-- `Function::new`: a record for a fresh address, named via the resolver. -/
def Function.new (address : Address) (first_pc : ProgramCounter)
    (dump : Resolver) : Function × Resolver :=
  let nd := dump.update address first_pc
  ({ address := address, name := nd.1, pc := first_pc, cost := 0, calls := [] }, nd.2)

/-- `Function::increment_cost`. -/
def Function.increment_cost (f : Function) : Function :=
  { f with cost := f.cost + 1 }

/-- `Function::add_call`. -/
def Function.add_call (f : Function) (call : Call) : Function :=
  { f with calls := f.calls ++ [call] }

/-- `Function::total_cost`. -/
def Function.total_cost (f : Function) : Nat :=
  f.calls.foldl (fun sum c => sum + c.cost) f.cost

/-- `Call::increment_cost`, on the chain view: walk to the childless
(innermost, i.e. last) frame, increment its cost and the exclusive cost of
its function record; `none` embeds the panic of the
`expect("Call address not found in registry of functions")` lookup. -/
def chain_increment_cost : Chain → Functions → Option (Chain × Functions)
  | [], _ => none
  | [c], functions =>
    match Map.get? functions c.address with
    | some f =>
      some ([{ c with cost := c.cost + 1 }],
        Map.insert functions c.address f.increment_cost)
    | none => none
  | c :: k :: rest, functions =>
    (chain_increment_cost (k :: rest) functions).map fun p => (c :: p.1, p.2)

/-- `Call::push_call`, on the chain view: walk to the innermost frame,
incrementing the depth of every frame passed, and attach the new frame with
its `caller` set to the innermost frame's address. -/
def chain_push_call : Chain → Call → Chain
  | [], call => [call]
  | [c], call => [{ c with depth := c.depth + 1 }, { call with caller := c.address }]
  | c :: k :: rest, call => { c with depth := c.depth + 1 } :: chain_push_call (k :: rest) call

/-- `Call::pop_call`, on the chain view: walk to the innermost frame's
parent, decrementing the depth of every frame passed, detach the innermost
frame and fold its cost into the parent's cost; `none` embeds the panic of
`assert!(self.callee.is_some())` (chain of length at most one). -/
def chain_pop_call : Chain → Option (Call × Chain)
  | [] => none
  | [_] => none
  | [c, k] =>
    some (k, [{ c with cost := c.cost + k.cost, depth := c.depth - 1 }])
  | c :: k :: l :: rest =>
    (chain_pop_call (k :: l :: rest)).map fun p =>
      (p.1, { c with depth := c.depth - 1 } :: p.2)

/-- `Profile` of `src/gen/profile.rs`; `ground` is the root frame together
with the chain of active frames it owns. -/
structure Profile where
  file : String
  ground : Chain
  functions : Functions
  dump : Resolver
  deriving Repr, DecidableEq

/-- `Profile::new`: root frame only, registry holding the root record. -/
def Profile.new (file : String) (dump : Resolver) : Profile :=
  { file := file
    ground := [Call.new GROUND_ZERO]
    functions := Map.insert [] GROUND_ZERO Function.ground_zero
    dump := dump }

/-- `Profile::increment_cost`. -/
def Profile.increment_cost (p : Profile) : Except GenError Profile :=
  match chain_increment_cost p.ground p.functions with
  | some (ground, functions) => .ok { p with ground := ground, functions := functions }
  | none => .error .panicAddrNotFound

/-- `Profile::push_call`: push the frame, then register the address on first
sight (resolving its name). -/
def Profile.push_call (p : Profile) (call : Call) (first_pc : ProgramCounter) : Profile :=
  let address := call.address
  let ground := chain_push_call p.ground call
  if Map.contains_key p.functions address then
    { p with ground := ground }
  else
    let fd := Function.new address first_pc p.dump
    { p with
      ground := ground
      functions := Map.insert p.functions address fd.1
      dump := fd.2 }

/-- `Profile::pop_call`: pop the innermost frame and, unless the popped frame
is the root itself, append it as a completed call to its caller's record;
`panicCallerNotFound` embeds the
`expect("Caller not found in registry of functions")` panic. -/
def Profile.pop_call (p : Profile) : Except GenError Profile :=
  match chain_pop_call p.ground with
  | none => .error .panicEmptyStack
  | some (call, ground) =>
    if call.is_ground then .ok { p with ground := ground }
    else
      match Map.get? p.functions call.caller with
      | some f =>
        .ok { p with
          ground := ground
          functions := Map.insert p.functions call.caller (f.add_call call) }
      | none => .error .panicCallerNotFound

/-- `parse_trace_file` of `src/gen/profile.rs`, over the classified line
stream.  The outer loop absorbs `Skip`; `Exit` costs one unit then pops;
`Other` costs one unit; `Call` enters the inner loop that costs one unit and
pushes per consecutive `Call` line, reading the next line eagerly — there the
result of `Instruction::parse` is propagated with `?`, so a `Skip`
classification (a blank or comment line right after a call, or the empty read
at end of file) surfaces as `Error::TraceSkipped`, and the first non-call
line is kept in the buffer for exactly one pass of the normal branches. -/
def parse_trace_file : List LineClass → Profile → Except GenError Profile
  | [], prof => .ok prof
  | .skip :: rest, prof => parse_trace_file rest prof
  | .fail :: _, _ => .error .traceParsing
  | .exit :: rest, prof => do
    let prof ← prof.increment_cost
    let prof ← prof.pop_call
    parse_trace_file rest prof
  | .other _ :: rest, prof => do
    let prof ← prof.increment_cost
    parse_trace_file rest prof
  | .call pc target :: rest, prof => do
    let prof ← prof.increment_cost
    let call := Call.new target
    let prof := prof.push_call call pc
    match rest with
    | [] => .error .traceSkipped
    | .skip :: _ => .error .traceSkipped
    | .fail :: _ => .error .traceParsing
    | _ => parse_trace_file rest prof

/-- Statistics accumulation of `write_callgrind_functions`: group a
function's completed calls by callee address, counting edges and summing
their inclusive costs. -/
def build_statistics (calls : List Call) : Map Address (Nat × Nat) :=
  calls.foldl
    (fun statistics c =>
      if !(Map.contains_key statistics c.address) then
        Map.insert statistics c.address (1, c.cost)
      else
        match Map.get? statistics c.address with
        | some stat => Map.insert statistics c.address (stat.1 + 1, stat.2 + c.cost)
        | none => statistics)
    []

/-- `write_callgrind_functions`: one block per non-root function in registry
insertion order; each block is a blank line, the `fn=` line, the
`<pc> <exclusiveCost>` line, then one aggregated three-line record per
distinct callee.  Output is embedded as the list of emitted lines. -/
def write_callgrind_functions (functions : Functions) : List String :=
  functions.foldr
    (fun af acc =>
      (if af.1 = GROUND_ZERO then []
       else
        let f := af.2
        ["", "fn=" ++ f.name, toString f.pc ++ " " ++ toString f.cost] ++
        (build_statistics f.calls).foldr
          (fun as acc2 =>
            let cf := (Map.get? functions as.1).getD Function.ground_zero
            ["cfn=" ++ cf.name,
             "calls=" ++ toString as.2.1 ++ " " ++ toString cf.pc,
             toString f.pc ++ " " ++ toString as.2.2] ++ acc2)
          []) ++ acc)
    []

/-- `Profile::write_callgrind`: the header lines (the grand total is the root
record's `total_cost`) followed by the function blocks. -/
def Profile.write_callgrind (p : Profile) : List String :=
  ["# callgrind format",
   "version: 1",
   "creator: bpf-profile",
   "events: Instructions",
   "totals: " ++
     toString ((Map.get? p.functions GROUND_ZERO).getD Function.ground_zero).total_cost,
   "fl=" ++ p.file] ++
  write_callgrind_functions p.functions

/-! ## Specification-side definitions -/

/-- Number of non-`Skip` lines of a classified trace. -/
def count_non_skip : List LineClass → Nat
  | [] => 0
  | .skip :: rest => count_non_skip rest
  | .call _ _ :: rest => count_non_skip rest + 1
  | .exit :: rest => count_non_skip rest + 1
  | .other _ :: rest => count_non_skip rest + 1
  | .fail :: rest => count_non_skip rest + 1

/-- Sum of the exclusive-cost fields over all registry records. -/
def sum_exclusive (functions : Functions) : Nat :=
  (functions.map (fun af => af.2.cost)).sum

/-- Total cost held by the frames of a chain. -/
def chain_cost (ch : Chain) : Nat := (ch.map Call.cost).sum

/-- Whether a parse result is one of the two registry-lookup panics
(`expect` in `Call::increment_cost` resp. `Profile::pop_call`). -/
def is_lookup_panic : Except GenError Profile → Bool
  | .error .panicAddrNotFound => true
  | .error .panicCallerNotFound => true
  | _ => false

/-- Number of completed call edges of a function towards one callee. -/
def count_edges (calls : List Call) (a : Address) : Nat :=
  (calls.filter (fun c => c.address = a)).length

/-- Summed inclusive cost of a function's call edges towards one callee. -/
def sum_edges (calls : List Call) (a : Address) : Nat :=
  ((calls.filter (fun c => c.address = a)).map Call.cost).sum

/-- First-seen-order deduplication of a list of addresses. -/
def first_seen : List Address → List Address
  | [] => []
  | a :: rest => a :: (first_seen rest).filter (fun x => x ≠ a)

/-! ## Map lemmas -/

theorem Map.get?_insert_self {α β : Type} [DecidableEq α] (m : Map α β) (k : α) (v : β) :
    Map.get? (Map.insert m k v) k = some v := by
  induction m with
  | nil => simp [Map.insert, Map.get?]
  | cons head rest ih =>
    obtain ⟨k', v'⟩ := head
    by_cases h : k' = k
    · subst h; simp [Map.insert, Map.get?]
    · simp [Map.insert, Map.get?, h, ih]

theorem Map.get?_insert_ne {α β : Type} [DecidableEq α] (m : Map α β) (k a : α) (v : β)
    (h : a ≠ k) : Map.get? (Map.insert m k v) a = Map.get? m a := by
  have hka : ¬(k = a) := fun hh => h hh.symm
  induction m with
  | nil => simp [Map.insert, Map.get?, hka]
  | cons head rest ih =>
    obtain ⟨k', v'⟩ := head
    by_cases hk : k' = k
    · subst hk
      simp [Map.insert, Map.get?, hka]
    · simp only [Map.insert, if_neg hk]
      by_cases ha : k' = a
      · subst ha; simp [Map.get?]
      · simp [Map.get?, ha, ih]

theorem Map.contains_key_eq_isSome {α β : Type} [DecidableEq α] (m : Map α β) (k : α) :
    Map.contains_key m k = (Map.get? m k).isSome := by
  induction m with
  | nil => simp [Map.contains_key, Map.get?]
  | cons head rest ih =>
    obtain ⟨k', v'⟩ := head
    by_cases h : k' = k
    · simp [Map.contains_key, Map.get?, h]
    · simp [Map.contains_key, Map.get?, h, ih]

theorem Map.contains_key_insert {α β : Type} [DecidableEq α] (m : Map α β) (k a : α) (v : β) :
    Map.contains_key (Map.insert m k v) a =
      (if a = k then true else Map.contains_key m a) := by
  by_cases h : a = k
  · subst h
    simp [Map.contains_key_eq_isSome, Map.get?_insert_self]
  · simp [Map.contains_key_eq_isSome, Map.get?_insert_ne m k a v h, h]

/-! ## Sum lemmas for the registry -/

theorem sum_exclusive_cons (k : Address) (v : Function) (rest : Functions) :
    sum_exclusive ((k, v) :: rest) = v.cost + sum_exclusive rest := by
  simp [sum_exclusive]

theorem sum_exclusive_insert_found (fs : Functions) (a : Address) (f g : Function)
    (h : Map.get? fs a = some f) :
    sum_exclusive (Map.insert fs a g) + f.cost = sum_exclusive fs + g.cost := by
  induction fs with
  | nil => simp [Map.get?] at h
  | cons head rest ih =>
    obtain ⟨k, v⟩ := head
    by_cases hk : k = a
    · subst hk
      rw [Map.get?, if_pos rfl] at h
      rw [Map.insert, if_pos rfl, sum_exclusive_cons, sum_exclusive_cons]
      cases h
      omega
    · rw [Map.get?, if_neg hk] at h
      rw [Map.insert, if_neg hk, sum_exclusive_cons, sum_exclusive_cons]
      have := ih h
      omega

theorem sum_exclusive_insert_new (fs : Functions) (a : Address) (g : Function)
    (h : Map.get? fs a = none) :
    sum_exclusive (Map.insert fs a g) = sum_exclusive fs + g.cost := by
  induction fs with
  | nil => simp [Map.insert, sum_exclusive_cons, sum_exclusive]
  | cons head rest ih =>
    obtain ⟨k, v⟩ := head
    by_cases hk : k = a
    · subst hk; simp [Map.get?] at h
    · rw [Map.get?, if_neg hk] at h
      rw [Map.insert, if_neg hk, sum_exclusive_cons, sum_exclusive_cons]
      have := ih h
      omega

/-! ## Closed-form equations for the chain walks -/

theorem chain_increment_cost_eq (front : Chain) (inner : Call) (fs : Functions) :
    chain_increment_cost (front ++ [inner]) fs =
      match Map.get? fs inner.address with
      | some f =>
        some (front ++ [{ inner with cost := inner.cost + 1 }],
          Map.insert fs inner.address f.increment_cost)
      | none => none := by
  induction front with
  | nil =>
    cases h : Map.get? fs inner.address <;>
      simp [chain_increment_cost, h]
  | cons c front ih =>
    have step : chain_increment_cost (c :: (front ++ [inner])) fs =
        (chain_increment_cost (front ++ [inner]) fs).map fun p => (c :: p.1, p.2) := by
      cases hf : front ++ [inner] with
      | nil => exact absurd hf (by simp)
      | cons k rest => rfl
    rw [List.cons_append, step, ih]
    cases Map.get? fs inner.address <;> simp

theorem chain_push_call_eq (front : Chain) (inner call : Call) :
    chain_push_call (front ++ [inner]) call =
      (front.map fun c => { c with depth := c.depth + 1 }) ++
      [{ inner with depth := inner.depth + 1 }, { call with caller := inner.address }] := by
  induction front with
  | nil => rfl
  | cons c front ih =>
    have step : chain_push_call (c :: (front ++ [inner])) call =
        { c with depth := c.depth + 1 } :: chain_push_call (front ++ [inner]) call := by
      cases hf : front ++ [inner] with
      | nil => exact absurd hf (by simp)
      | cons k rest => rfl
    rw [List.cons_append, step, ih, List.map_cons, List.cons_append]

theorem chain_pop_call_eq (front : Chain) (par popped : Call) :
    chain_pop_call (front ++ [par, popped]) =
      some (popped,
        (front.map fun c => { c with depth := c.depth - 1 }) ++
        [{ par with cost := par.cost + popped.cost, depth := par.depth - 1 }]) := by
  induction front with
  | nil => rfl
  | cons c front ih =>
    have step : chain_pop_call (c :: (front ++ [par, popped])) =
        (chain_pop_call (front ++ [par, popped])).map fun p =>
          (p.1, { c with depth := c.depth - 1 } :: p.2) := by
      cases hf : front ++ [par, popped] with
      | nil => exact absurd hf (by simp)
      | cons k rest =>
        cases rest with
        | nil =>
          have : (front ++ [par, popped]).length = 1 := by rw [hf]; rfl
          simp at this
        | cons l rest' => rfl
    rw [List.cons_append, step, ih]
    simp

/-! ## Profile-level step lemmas -/

theorem except_bind_ok {ε α β : Type} (a : α) (f : α → Except ε β) :
    (Except.ok a >>= f : Except ε β) = f a := rfl

theorem except_bind_error {ε α β : Type} (e : ε) (f : α → Except ε β) :
    (Except.error e >>= f : Except ε β) = Except.error e := rfl

/-! ### Defining equations of the parse loop, one per line class -/

theorem parse_nil (p : Profile) : parse_trace_file [] p = .ok p := rfl

theorem parse_skip (rest : List LineClass) (p : Profile) :
    parse_trace_file (.skip :: rest) p = parse_trace_file rest p := rfl

theorem parse_fail (rest : List LineClass) (p : Profile) :
    parse_trace_file (.fail :: rest) p = .error .traceParsing := rfl

theorem parse_exit (rest : List LineClass) (p : Profile) :
    parse_trace_file (.exit :: rest) p =
      (p.increment_cost >>= fun p1 => p1.pop_call >>= fun p2 =>
        parse_trace_file rest p2) := rfl

theorem parse_other (pc : ProgramCounter) (rest : List LineClass) (p : Profile) :
    parse_trace_file (.other pc :: rest) p =
      (p.increment_cost >>= fun p1 => parse_trace_file rest p1) := rfl

theorem parse_call (pc : ProgramCounter) (target : Address) (rest : List LineClass)
    (p : Profile) :
    parse_trace_file (.call pc target :: rest) p =
      (p.increment_cost >>= fun p1 =>
        match rest with
        | [] => .error .traceSkipped
        | .skip :: _ => .error .traceSkipped
        | .fail :: _ => .error .traceParsing
        | _ => parse_trace_file rest (p1.push_call (Call.new target) pc)) := rfl

/-! ### Characterizations of the three profile operations -/

theorem Profile.increment_cost_eq_some {p : Profile} {gf : Chain × Functions}
    (hc : chain_increment_cost p.ground p.functions = some gf) :
    p.increment_cost = .ok { p with ground := gf.1, functions := gf.2 } := by
  unfold Profile.increment_cost
  rw [hc]

theorem Profile.increment_cost_eq_none {p : Profile}
    (hc : chain_increment_cost p.ground p.functions = none) :
    p.increment_cost = .error .panicAddrNotFound := by
  unfold Profile.increment_cost
  rw [hc]

theorem Profile.pop_call_eq_none {p : Profile} (hc : chain_pop_call p.ground = none) :
    p.pop_call = .error .panicEmptyStack := by
  unfold Profile.pop_call
  rw [hc]

theorem Profile.pop_call_eq_ground {p : Profile} {call : Call} {ground : Chain}
    (hc : chain_pop_call p.ground = some (call, ground)) (hgr : call.is_ground = true) :
    p.pop_call = .ok { p with ground := ground } := by
  unfold Profile.pop_call
  rw [hc]
  simp [hgr]

theorem Profile.pop_call_eq_edge {p : Profile} {call : Call} {ground : Chain} {f : Function}
    (hc : chain_pop_call p.ground = some (call, ground)) (hgr : call.is_ground = false)
    (hf : Map.get? p.functions call.caller = some f) :
    p.pop_call = .ok { p with
      ground := ground
      functions := Map.insert p.functions call.caller (f.add_call call) } := by
  unfold Profile.pop_call
  rw [hc]
  simp [hgr, hf]

theorem Profile.pop_call_eq_nofun {p : Profile} {call : Call} {ground : Chain}
    (hc : chain_pop_call p.ground = some (call, ground)) (hgr : call.is_ground = false)
    (hf : Map.get? p.functions call.caller = none) :
    p.pop_call = .error .panicCallerNotFound := by
  unfold Profile.pop_call
  rw [hc]
  simp [hgr, hf]

theorem Profile.push_call_eq_found {p : Profile} {call : Call} (first_pc : ProgramCounter)
    (hc : Map.contains_key p.functions call.address = true) :
    p.push_call call first_pc = { p with ground := chain_push_call p.ground call } := by
  unfold Profile.push_call
  simp [hc]

theorem Profile.push_call_eq_new {p : Profile} {call : Call} (first_pc : ProgramCounter)
    (hc : Map.contains_key p.functions call.address = false) :
    p.push_call call first_pc = { p with
      ground := chain_push_call p.ground call
      functions :=
        Map.insert p.functions call.address (Function.new call.address first_pc p.dump).1
      dump := (Function.new call.address first_pc p.dump).2 } := by
  unfold Profile.push_call
  simp [hc]

theorem chain_increment_cost_sum {ch ch' : Chain} {fs fs' : Functions}
    (h : chain_increment_cost ch fs = some (ch', fs')) :
    sum_exclusive fs' = sum_exclusive fs + 1 := by
  induction ch generalizing ch' with
  | nil => simp [chain_increment_cost] at h
  | cons c tail ih =>
    cases tail with
    | nil =>
      rw [chain_increment_cost] at h
      cases hf : Map.get? fs c.address with
      | none => rw [hf] at h; cases h
      | some f =>
        rw [hf] at h
        cases h
        have := sum_exclusive_insert_found fs c.address f f.increment_cost hf
        simp only [Function.increment_cost] at this ⊢
        omega
    | cons k rest =>
      rw [chain_increment_cost] at h
      cases hc : chain_increment_cost (k :: rest) fs with
      | none => rw [hc] at h; cases h
      | some p =>
        rw [hc] at h
        cases h
        exact ih hc

theorem Profile.increment_cost_ok_sum {p q : Profile} (h : p.increment_cost = .ok q) :
    sum_exclusive q.functions = sum_exclusive p.functions + 1 := by
  unfold Profile.increment_cost at h
  cases hc : chain_increment_cost p.ground p.functions with
  | none => rw [hc] at h; cases h
  | some gf =>
    rw [hc] at h
    cases h
    exact chain_increment_cost_sum (by rw [hc])

theorem Profile.pop_call_ok_sum {p q : Profile} (h : p.pop_call = .ok q) :
    sum_exclusive q.functions = sum_exclusive p.functions := by
  cases hc : chain_pop_call p.ground with
  | none => rw [Profile.pop_call_eq_none hc] at h; cases h
  | some cg =>
    obtain ⟨call, ground⟩ := cg
    cases hgr : call.is_ground with
    | true => rw [Profile.pop_call_eq_ground hc hgr] at h; cases h; rfl
    | false =>
      cases hf : Map.get? p.functions call.caller with
      | none => rw [Profile.pop_call_eq_nofun hc hgr hf] at h; cases h
      | some f =>
        rw [Profile.pop_call_eq_edge hc hgr hf] at h
        cases h
        have := sum_exclusive_insert_found p.functions call.caller f (f.add_call call) hf
        simp only [Function.add_call] at this ⊢
        omega

theorem Profile.push_call_sum (p : Profile) (call : Call) (first_pc : ProgramCounter) :
    sum_exclusive (p.push_call call first_pc).functions = sum_exclusive p.functions := by
  unfold Profile.push_call
  by_cases hc : Map.contains_key p.functions call.address = true
  · rw [if_pos hc]
  · rw [if_neg hc]
    have hnone : Map.get? p.functions call.address = none := by
      rw [Map.contains_key_eq_isSome] at hc
      cases hg : Map.get? p.functions call.address with
      | none => rfl
      | some f => rw [hg] at hc; simp at hc
    show sum_exclusive
        (Map.insert p.functions call.address (Function.new call.address first_pc p.dump).1) = _
    rw [sum_exclusive_insert_new p.functions call.address
      (Function.new call.address first_pc p.dump).1 hnone]
    have hz : (Function.new call.address first_pc p.dump).1.cost = 0 := rfl
    omega

/-- Over any parse that returns a profile, the registry-wide exclusive cost
grows by exactly the number of non-`Skip` lines consumed. -/
theorem parse_trace_file_sum (lines : List LineClass) :
    ∀ p q : Profile, parse_trace_file lines p = .ok q →
      sum_exclusive q.functions = sum_exclusive p.functions + count_non_skip lines := by
  induction lines with
  | nil =>
    intro p q h
    rw [parse_nil] at h
    cases h
    simp [count_non_skip]
  | cons head tail ih =>
    intro p q h
    cases head with
    | skip =>
      rw [parse_skip] at h
      rw [count_non_skip]
      exact ih p q h
    | fail => rw [parse_fail] at h; cases h
    | exit =>
      rw [parse_exit] at h
      cases h1 : p.increment_cost with
      | error e => rw [h1, except_bind_error] at h; cases h
      | ok p1 =>
        rw [h1, except_bind_ok] at h
        cases h2 : p1.pop_call with
        | error e => rw [h2, except_bind_error] at h; cases h
        | ok p2 =>
          rw [h2, except_bind_ok] at h
          have hs1 := Profile.increment_cost_ok_sum h1
          have hs2 := Profile.pop_call_ok_sum h2
          have hs3 := ih p2 q h
          rw [count_non_skip]
          omega
    | other pc =>
      rw [parse_other] at h
      cases h1 : p.increment_cost with
      | error e => rw [h1, except_bind_error] at h; cases h
      | ok p1 =>
        rw [h1, except_bind_ok] at h
        have hs1 := Profile.increment_cost_ok_sum h1
        have hs3 := ih p1 q h
        rw [count_non_skip]
        omega
    | call pc target =>
      rw [parse_call] at h
      cases h1 : p.increment_cost with
      | error e => rw [h1, except_bind_error] at h; cases h
      | ok p1 =>
        rw [h1, except_bind_ok] at h
        have hs1 := Profile.increment_cost_ok_sum h1
        have hs2 := Profile.push_call_sum p1 (Call.new target) pc
        rw [count_non_skip]
        cases tail with
        | nil => cases h
        | cons head' tail' =>
          cases head' with
          | skip => cases h
          | fail => cases h
          | exit =>
            have hs3 := ih _ q h
            omega
          | other pc' =>
            have hs3 := ih _ q h
            omega
          | call pc' target' =>
            have hs3 := ih _ q h
            omega

/-- A freshly created profile carries no exclusive cost. -/
theorem sum_exclusive_profile_new (file : String) (dump : Resolver) :
    sum_exclusive (Profile.new file dump).functions = 0 := rfl

/-- **C1.** Cost conservation: for every trace accepted by the parse loop,
the sum of the exclusive-cost fields over all `Function` records in the
registry (the root sentinel record included) equals the total number of
non-`Skip` lines processed: each processed non-`Skip` line triggers exactly
one cost increment, which increments exactly one function's exclusive cost —
that of the innermost frame's address. -/
theorem c1_cost_conservation (lines : List LineClass) (file : String) (dump : Resolver)
    (prof : Profile) (h : parse_trace_file lines (Profile.new file dump) = .ok prof) :
    sum_exclusive prof.functions = count_non_skip lines := by
  have := parse_trace_file_sum lines (Profile.new file dump) prof h
  rw [sum_exclusive_profile_new] at this
  omega

/-- Witness for C1: the three-line trace `call 0x10; other; exit` parses
successfully and the registry's exclusive costs sum to its 3 non-skip
lines. -/
theorem c1_cost_conservation_witness :
    ∃ prof : Profile,
      parse_trace_file [.call 100 0x10, .other 101, .exit, .skip]
        (Profile.new "trace" {}) = .ok prof ∧
      sum_exclusive prof.functions =
        count_non_skip [.call 100 0x10, .other 101, .exit, .skip] :=
  ⟨_, rfl, c1_cost_conservation [.call 100 0x10, .other 101, .exit, .skip]
    "trace" {} _ rfl⟩

/-- **C7.** Scenario: for the trace `call 0x10 (pc 100); other; exit`, the
resulting profile gives function `0x10` exclusive cost exactly 2 (the call
instruction's unit goes to the caller — the root, whose record carries cost
1), the root's grand total is 3, and the report shows `totals: 3` and the
block of `0x10` with self-cost line `100 2`. -/
theorem c7_scenario_call_other_exit :
    ∃ prof : Profile,
      parse_trace_file [.call 100 0x10, .other 101, .exit]
        (Profile.new "trace" {}) = .ok prof ∧
      (Map.get? prof.functions 0x10).map Function.cost = some 2 ∧
      (Map.get? prof.functions GROUND_ZERO).map Function.cost = some 1 ∧
      ((Map.get? prof.functions GROUND_ZERO).getD Function.ground_zero).total_cost = 3 ∧
      prof.write_callgrind =
        ["# callgrind format", "version: 1", "creator: bpf-profile",
         "events: Instructions", "totals: 3", "fl=trace",
         "", "fn=function_0 (0x10)", "100 2"] :=
  ⟨_, rfl, rfl, rfl, rfl, rfl⟩

/-- **C4 counterexample.** A `Skip` classification for the line read inside
the nested-call fast path (right after a `Call` line) is *not* absorbed: it
surfaces to the caller of the parse loop as the `TraceSkipped` error. -/
theorem c4_skip_after_call_counterexample :
    parse_trace_file [.call 604 0xAA, .skip] (Profile.new "trace" {}) =
      .error .traceSkipped := rfl

/-- **C4 (amended).** The outer parse loop absorbs a `Skip` classification —
the line is discarded and parsing continues — but the line read eagerly
inside the nested-call fast path (the line immediately following a `Call`
line, including the empty read at end of file) has its `Skip` classification
propagated to the caller as the `TraceSkipped` error. -/
theorem c4_skip_absorption_amended :
    (∀ (rest : List LineClass) (p : Profile),
      parse_trace_file (.skip :: rest) p = parse_trace_file rest p) ∧
    (∀ (pc : ProgramCounter) (a : Address) (rest : List LineClass) (p q : Profile),
      p.increment_cost = .ok q →
      parse_trace_file (.call pc a :: .skip :: rest) p = .error .traceSkipped) ∧
    (∀ (pc : ProgramCounter) (a : Address) (p q : Profile),
      p.increment_cost = .ok q →
      parse_trace_file [.call pc a] p = .error .traceSkipped) := by
  refine ⟨fun rest p => parse_skip rest p, fun pc a rest p q h => ?_, fun pc a p q h => ?_⟩
  · rw [parse_call, h, except_bind_ok]
  · rw [parse_call, h, except_bind_ok]

/-- Witness for C4: both nested-path propagation clauses evaluated on a
fresh profile. -/
theorem c4_skip_absorption_amended_witness :
    parse_trace_file [.call 604 0xAA, .skip, .other 9] (Profile.new "w" {}) =
      .error .traceSkipped ∧
    parse_trace_file [.call 604 0xAA] (Profile.new "w" {}) = .error .traceSkipped :=
  ⟨c4_skip_absorption_amended.2.1 604 0xAA [.other 9] (Profile.new "w" {}) _ rfl,
   c4_skip_absorption_amended.2.2 604 0xAA (Profile.new "w" {}) _ rfl⟩

/-- **C3.** Back-to-back calls: consecutive `Call` lines are pushed one per
line with no other line processed in between, and the first non-`Call` line
after the run is handed to the normal branch exactly once (first two
clauses); on `call 0xAA; call 0xBB; exit; exit` the chain reaches
`[root, 0xAA, 0xBB]` with root depth 2 before any non-`Call` line is
processed, and `0xBB` is closed before `0xAA` — the `0xBB` edge sits in
`0xAA`'s record, `0xBB`'s exclusive cost 1 covers exactly its own lines, and
the root holds the completed `0xAA` edge (last clauses). -/
theorem c3_back_to_back_calls :
    (∀ (pc1 : ProgramCounter) (a1 : Address) (pc2 : ProgramCounter) (a2 : Address)
       (rest : List LineClass) (p p1 p3 : Profile),
      p.increment_cost = .ok p1 →
      (p1.push_call (Call.new a1) pc1).increment_cost = .ok p3 →
      parse_trace_file (.call pc1 a1 :: .call pc2 a2 :: .exit :: rest) p =
        parse_trace_file (.exit :: rest) (p3.push_call (Call.new a2) pc2)) ∧
    (∀ (pc1 : ProgramCounter) (a1 : Address) (pc2 : ProgramCounter) (a2 : Address)
       (pc3 : ProgramCounter) (rest : List LineClass) (p p1 p3 : Profile),
      p.increment_cost = .ok p1 →
      (p1.push_call (Call.new a1) pc1).increment_cost = .ok p3 →
      parse_trace_file (.call pc1 a1 :: .call pc2 a2 :: .other pc3 :: rest) p =
        parse_trace_file (.other pc3 :: rest) (p3.push_call (Call.new a2) pc2)) ∧
    (∃ p1 p3 : Profile,
      (Profile.new "trace" {}).increment_cost = .ok p1 ∧
      (p1.push_call (Call.new 0xAA) 604).increment_cost = .ok p3 ∧
      ((p3.push_call (Call.new 0xBB) 10).ground.map Call.address =
        [GROUND_ZERO, 0xAA, 0xBB] ∧
       (p3.push_call (Call.new 0xBB) 10).ground.head?.map Call.depth = some 2)) ∧
    (∃ prof : Profile,
      parse_trace_file [.call 604 0xAA, .call 10 0xBB, .exit, .exit]
        (Profile.new "trace" {}) = .ok prof ∧
      (Map.get? prof.functions 0xAA).map
        (fun f => (f.cost, f.calls.map fun c => (c.address, c.cost))) =
          some (2, [(0xBB, 1)]) ∧
      (Map.get? prof.functions 0xBB).map
        (fun f => (f.cost, f.calls.map fun c => (c.address, c.cost))) = some (1, []) ∧
      (Map.get? prof.functions GROUND_ZERO).map
        (fun f => f.calls.map fun c => (c.address, c.cost)) = some [(0xAA, 3)]) := by
  refine ⟨fun pc1 a1 pc2 a2 rest p p1 p3 h1 h2 => ?_,
    fun pc1 a1 pc2 a2 pc3 rest p p1 p3 h1 h2 => ?_,
    ⟨_, _, rfl, rfl, rfl, rfl⟩, ⟨_, rfl, rfl, rfl, rfl⟩⟩
  · rw [parse_call, h1, except_bind_ok]
    show parse_trace_file (.call pc2 a2 :: .exit :: rest)
      (p1.push_call (Call.new a1) pc1) = _
    rw [parse_call, h2, except_bind_ok]
  · rw [parse_call, h1, except_bind_ok]
    show parse_trace_file (.call pc2 a2 :: .other pc3 :: rest)
      (p1.push_call (Call.new a1) pc1) = _
    rw [parse_call, h2, except_bind_ok]

/-- Witness for C3: the first clause evaluated on a fresh profile. -/
theorem c3_back_to_back_calls_witness :
    ∃ p1 p3 : Profile,
      (Profile.new "w" {}).increment_cost = .ok p1 ∧
      (p1.push_call (Call.new 2) 1).increment_cost = .ok p3 ∧
      parse_trace_file [.call 1 2, .call 3 4, .exit] (Profile.new "w" {}) =
        parse_trace_file [.exit] (p3.push_call (Call.new 4) 3) :=
  ⟨_, _, rfl, rfl, c3_back_to_back_calls.1 1 2 3 4 [] (Profile.new "w" {}) _ _ rfl rfl⟩

/-- **C2.** Pop on a non-empty active chain: the unique innermost (childless)
frame — the last of the chain — is detached, its accumulated cost is folded
into its immediate parent's cost field, and exactly one edge, the popped
frame itself carrying `calleeAddress = popped.address` and
`inclusiveCost = popped.cost`, is appended to the caller function's
`callEdges` (first clause; non-parent frames only have their depth
decremented).  The final clauses restate the cost flows that make
`popped.cost` the inclusive cost of the completed call: cost attribution
increments only the innermost frame's cost, and a pushed frame starts at
cost 0, so a frame's cost on pop is its self cost plus the folded inclusive
costs of its completed nested calls. -/
theorem c2_pop_call_semantics (p : Profile) (front : Chain) (par popped : Call)
    (f : Function)
    (hg : p.ground = front ++ [par, popped])
    (hcaller : popped.caller = par.address)
    (hne : popped.address ≠ GROUND_ZERO)
    (hf : Map.get? p.functions par.address = some f) :
    (p.pop_call = .ok { p with
      ground := (front.map fun c => { c with depth := c.depth - 1 }) ++
        [{ par with cost := par.cost + popped.cost, depth := par.depth - 1 }]
      functions := Map.insert p.functions par.address (f.add_call popped) } ∧
     (f.add_call popped).calls = f.calls ++ [popped]) ∧
    (∀ (front' : Chain) (inner : Call) (fs : Functions) (g : Function),
      Map.get? fs inner.address = some g →
      chain_increment_cost (front' ++ [inner]) fs =
        some (front' ++ [{ inner with cost := inner.cost + 1 }],
          Map.insert fs inner.address g.increment_cost)) ∧
    (∀ (front' : Chain) (inner call : Call),
      chain_push_call (front' ++ [inner]) call =
        (front'.map fun c => { c with depth := c.depth + 1 }) ++
        [{ inner with depth := inner.depth + 1 },
         { call with caller := inner.address }]) := by
  refine ⟨⟨?_, rfl⟩, fun front' inner fs g hgt => ?_, chain_push_call_eq⟩
  · have hgr : popped.is_ground = false := by
      simp [Call.is_ground]
      exact hne
    have hc : chain_pop_call p.ground =
        some (popped, (front.map fun c => { c with depth := c.depth - 1 }) ++
          [{ par with cost := par.cost + popped.cost, depth := par.depth - 1 }]) := by
      rw [hg]
      exact chain_pop_call_eq front par popped
    have hf' : Map.get? p.functions popped.caller = some f := by rw [hcaller]; exact hf
    rw [Profile.pop_call_eq_edge hc hgr hf', hcaller]
  · rw [chain_increment_cost_eq, hgt]

/-- Witness for C2: a concrete two-frame chain above the root; popping
detaches the innermost frame, folds its cost 5 into the parent and appends
the edge to the parent's record. -/
theorem c2_pop_call_semantics_witness :
    (Profile.pop_call
        { file := "w"
          ground := [{ address := GROUND_ZERO, caller := 0, cost := 2, depth := 2 },
                     { address := 7, caller := GROUND_ZERO, cost := 3, depth := 1 },
                     { address := 9, caller := 7, cost := 5, depth := 0 }]
          functions := [(GROUND_ZERO, Function.ground_zero),
            (7, { address := 7, name := "f7", pc := 70, cost := 3, calls := [] }),
            (9, { address := 9, name := "f9", pc := 90, cost := 5, calls := [] })]
          dump := {} } = .ok
      { file := "w"
        ground := [{ address := GROUND_ZERO, caller := 0, cost := 2, depth := 1 },
                   { address := 7, caller := GROUND_ZERO, cost := 8, depth := 0 }]
        functions := [(GROUND_ZERO, Function.ground_zero),
          (7, { address := 7, name := "f7", pc := 70, cost := 3,
                calls := [{ address := 9, caller := 7, cost := 5, depth := 0 }] }),
          (9, { address := 9, name := "f9", pc := 90, cost := 5, calls := [] })]
        dump := {} } ∧
     (Function.add_call { address := 7, name := "f7", pc := 70, cost := 3, calls := [] }
        { address := 9, caller := 7, cost := 5, depth := 0 }).calls =
       [] ++ [{ address := 9, caller := 7, cost := 5, depth := 0 }]) ∧
    (∀ (front' : Chain) (inner : Call) (fs : Functions) (g : Function),
      Map.get? fs inner.address = some g →
      chain_increment_cost (front' ++ [inner]) fs =
        some (front' ++ [{ inner with cost := inner.cost + 1 }],
          Map.insert fs inner.address g.increment_cost)) ∧
    (∀ (front' : Chain) (inner call : Call),
      chain_push_call (front' ++ [inner]) call =
        (front'.map fun c => { c with depth := c.depth + 1 }) ++
        [{ inner with depth := inner.depth + 1 },
         { call with caller := inner.address }]) :=
  c2_pop_call_semantics _
    [{ address := GROUND_ZERO, caller := 0, cost := 2, depth := 2 }]
    { address := 7, caller := GROUND_ZERO, cost := 3, depth := 1 }
    { address := 9, caller := 7, cost := 5, depth := 0 }
    { address := 7, name := "f7", pc := 70, cost := 3, calls := [] }
    rfl rfl (by decide) rfl

/-- **C5 counterexample.** After `call 0x10; exit` (a pop whose parent is the
root sentinel) the GROUND_ZERO `FunctionRecord`'s `callEdges`, empty at
start, holds the completed `0x10` edge — so the claim that no
`FunctionRecord`'s `callEdges` changes on a root-parented pop is false. -/
theorem c5_root_edge_counterexample :
    ∃ prof : Profile,
      parse_trace_file [.call 100 0x10, .exit] (Profile.new "trace" {}) = .ok prof ∧
      (Map.get? prof.functions GROUND_ZERO).map
        (fun f => f.calls.map fun c => (c.address, c.cost)) = some [(0x10, 1)] :=
  ⟨_, rfl, rfl⟩

/-- **C5 (amended).** A pop whose parent frame is the root sentinel appends
the completed call edge to the root sentinel's own `FunctionRecord` (keyed by
`GROUND_ZERO`, never emitted as a function block in the report); no non-root
record's `callEdges` changes, and the root frame's own cost field absorbs the
popped frame's cost. -/
theorem c5_root_edge_amended (p : Profile) (g popped : Call) (f : Function)
    (hg : p.ground = [g, popped])
    (hcaller : popped.caller = GROUND_ZERO)
    (hne : popped.address ≠ GROUND_ZERO)
    (hf : Map.get? p.functions GROUND_ZERO = some f) :
    p.pop_call = .ok { p with
      ground := [{ g with cost := g.cost + popped.cost, depth := g.depth - 1 }]
      functions := Map.insert p.functions GROUND_ZERO (f.add_call popped) } ∧
    (∀ a, a ≠ GROUND_ZERO →
      Map.get? (Map.insert p.functions GROUND_ZERO (f.add_call popped)) a =
        Map.get? p.functions a) := by
  constructor
  · have hgr : popped.is_ground = false := by
      simp [Call.is_ground]
      exact hne
    have hc : chain_pop_call p.ground =
        some (popped, [{ g with cost := g.cost + popped.cost, depth := g.depth - 1 }]) := by
      rw [hg]
      exact chain_pop_call_eq [] g popped
    have hf' : Map.get? p.functions popped.caller = some f := by rw [hcaller]; exact hf
    rw [Profile.pop_call_eq_edge hc hgr hf', hcaller]
  · intro a ha
    exact Map.get?_insert_ne p.functions GROUND_ZERO a (f.add_call popped) ha

/-- Witness for C5: a root-with-one-frame chain; popping folds the cost into
the root frame and appends the edge to the GROUND_ZERO record. -/
theorem c5_root_edge_amended_witness :
    (Profile.pop_call
        { file := "w"
          ground := [{ address := GROUND_ZERO, caller := 0, cost := 1, depth := 1 },
                     { address := 0x10, caller := GROUND_ZERO, cost := 4, depth := 0 }]
          functions := [(GROUND_ZERO, Function.ground_zero)]
          dump := {} } = .ok
      { file := "w"
        ground := [{ address := GROUND_ZERO, caller := 0, cost := 5, depth := 0 }]
        functions := [(GROUND_ZERO, Function.add_call Function.ground_zero
          { address := 0x10, caller := GROUND_ZERO, cost := 4, depth := 0 })]
        dump := {} }) ∧
    (∀ a, a ≠ GROUND_ZERO →
      Map.get? (Map.insert [(GROUND_ZERO, Function.ground_zero)] GROUND_ZERO
        (Function.add_call Function.ground_zero
          { address := 0x10, caller := GROUND_ZERO, cost := 4, depth := 0 })) a =
        Map.get? [(GROUND_ZERO, Function.ground_zero)] a) :=
  c5_root_edge_amended _
    { address := GROUND_ZERO, caller := 0, cost := 1, depth := 1 }
    { address := 0x10, caller := GROUND_ZERO, cost := 4, depth := 0 }
    Function.ground_zero rfl rfl (by decide) rfl

/-! ## Aggregation lemmas for the serializer -/

theorem mem_first_seen (a : Address) (l : List Address) : a ∈ first_seen l ↔ a ∈ l := by
  induction l with
  | nil => simp [first_seen]
  | cons b l ih =>
    rw [first_seen]
    by_cases hab : a = b
    · subst hab; simp
    · simp [hab, List.mem_filter, ih]

theorem first_seen_concat (l : List Address) (a : Address) :
    first_seen (l ++ [a]) =
      if a ∈ l then first_seen l else first_seen l ++ [a] := by
  induction l with
  | nil => simp [first_seen]
  | cons b l ih =>
    rw [List.cons_append, first_seen, first_seen, ih]
    by_cases hal : a ∈ l
    · simp [hal]
    · by_cases hab : a = b
      · subst hab
        simp [hal, List.filter_append]
      · simp only [hal, if_false, List.mem_cons, hab, false_or, List.filter_append]
        simp [hab, Ne.symm hab]

theorem Map.contains_key_eq_mem {α β : Type} [DecidableEq α] (m : Map α β) (k : α) :
    Map.contains_key m k = true ↔ k ∈ m.map Prod.fst := by
  induction m with
  | nil => simp [Map.contains_key]
  | cons head rest ih =>
    obtain ⟨k', v'⟩ := head
    by_cases h : k' = k
    · subst h; simp [Map.contains_key]
    · rw [Map.contains_key, if_neg h, ih]
      simp only [List.map_cons, List.mem_cons]
      constructor
      · exact Or.inr
      · rintro (hk | hk)
        · exact absurd hk.symm h
        · exact hk

theorem Map.keys_insert {α β : Type} [DecidableEq α] (m : Map α β) (k : α) (v : β) :
    (Map.insert m k v).map Prod.fst =
      if k ∈ m.map Prod.fst then m.map Prod.fst else m.map Prod.fst ++ [k] := by
  induction m with
  | nil => simp [Map.insert]
  | cons head rest ih =>
    obtain ⟨k', v'⟩ := head
    by_cases h : k' = k
    · subst h; simp [Map.insert]
    · simp only [Map.insert, if_neg h, List.map_cons, ih]
      by_cases hk : k ∈ rest.map Prod.fst
      · simp [hk, Ne.symm h]
      · simp [hk, Ne.symm h]

theorem count_edges_concat (cs : List Call) (c : Call) (a : Address) :
    count_edges (cs ++ [c]) a =
      count_edges cs a + if c.address = a then 1 else 0 := by
  by_cases hca : c.address = a <;> simp [count_edges, List.filter_append, hca]

theorem sum_edges_concat (cs : List Call) (c : Call) (a : Address) :
    sum_edges (cs ++ [c]) a =
      sum_edges cs a + if c.address = a then c.cost else 0 := by
  by_cases hca : c.address = a <;> simp [sum_edges, List.filter_append, hca]

theorem build_statistics_concat (cs : List Call) (c : Call) :
    build_statistics (cs ++ [c]) =
      (if !(Map.contains_key (build_statistics cs) c.address) then
        Map.insert (build_statistics cs) c.address (1, c.cost)
      else
        match Map.get? (build_statistics cs) c.address with
        | some stat =>
          Map.insert (build_statistics cs) c.address (stat.1 + 1, stat.2 + c.cost)
        | none => build_statistics cs) := by
  unfold build_statistics
  rw [List.foldl_append]
  rfl

/-- The aggregation step of the serializer, characterized: one record per
distinct callee in first-seen order, counting the edges and summing their
inclusive costs. -/
theorem build_statistics_spec (calls : List Call) :
    (build_statistics calls).map Prod.fst = first_seen (calls.map Call.address) ∧
    ∀ a, Map.get? (build_statistics calls) a =
      (if a ∈ calls.map Call.address
       then some (count_edges calls a, sum_edges calls a) else none) := by
  induction calls using List.reverseRecOn with
  | nil =>
    refine ⟨rfl, fun a => ?_⟩
    simp [build_statistics, Map.get?, first_seen]
  | append_singleton cs c ih =>
    obtain ⟨ihk, ihg⟩ := ih
    rw [build_statistics_concat]
    by_cases hmem : c.address ∈ cs.map Call.address
    · have hget : Map.get? (build_statistics cs) c.address =
          some (count_edges cs c.address, sum_edges cs c.address) := by
        rw [ihg]; simp [hmem]
      have hcont : Map.contains_key (build_statistics cs) c.address = true := by
        rw [Map.contains_key_eq_isSome, hget]; rfl
      rw [hcont, hget]
      simp only [Bool.not_true, Bool.false_eq_true, if_false]
      constructor
      · rw [Map.keys_insert, ihk, List.map_append, List.map_singleton, first_seen_concat]
        simp [hmem, mem_first_seen]
      · intro a
        by_cases hac : a = c.address
        · subst hac
          rw [Map.get?_insert_self]
          simp [hmem, count_edges_concat, sum_edges_concat, ihg]
        · rw [Map.get?_insert_ne _ _ _ _ hac, ihg a, List.map_append]
          have hna : ¬(c.address = a) := fun hh => hac hh.symm
          simp [count_edges_concat, sum_edges_concat, hna, hac]
    · have hget : Map.get? (build_statistics cs) c.address = none := by
        rw [ihg]; simp [hmem]
      have hcont : Map.contains_key (build_statistics cs) c.address = false := by
        rw [Map.contains_key_eq_isSome, hget]; rfl
      rw [hcont]
      simp only [Bool.not_false, if_true]
      constructor
      · rw [Map.keys_insert, ihk, List.map_append, List.map_singleton, first_seen_concat]
        simp [hmem, mem_first_seen]
      · intro a
        by_cases hac : a = c.address
        · subst hac
          rw [Map.get?_insert_self]
          have he : cs.filter (fun x => x.address = c.address) = [] := by
            rw [List.filter_eq_nil_iff]
            intro x hx
            simp only [decide_eq_true_eq]
            intro hxa
            exact hmem (hxa ▸ List.mem_map_of_mem Call.address hx)
          have hcz : count_edges cs c.address = 0 := by
            simp [count_edges, he]
          have hsz : sum_edges cs c.address = 0 := by
            simp [sum_edges, he]
          simp [count_edges_concat, sum_edges_concat, hcz, hsz]
        · rw [Map.get?_insert_ne _ _ _ _ hac, ihg a, List.map_append]
          have hna : ¬(c.address = a) := fun hh => hac hh.symm
          simp [count_edges_concat, sum_edges_concat, hna, hac]

theorem first_seen_nodup (l : List Address) : (first_seen l).Nodup := by
  induction l with
  | nil => simp [first_seen]
  | cons a l ih =>
    rw [first_seen]
    rw [List.nodup_cons]
    refine ⟨?_, ih.filter _⟩
    intro hmem
    have := (List.mem_filter.mp hmem).2
    simp at this

/-- Refinement-side definition, following the spec's serializer description
for a single function block: a blank separator, the `fn=` name line, the
`<pc> <exclusiveCost>` line, then for each aggregated callee (in first-seen
order) the `cfn=` name line, the `calls=<count> <calleePc>` line and the
`<callerPc> <summedInclusiveCost>` line. -/
def function_block (functions : Functions) (f : Function) : List String :=
  ["", "fn=" ++ f.name, toString f.pc ++ " " ++ toString f.cost] ++
  (build_statistics f.calls).flatMap fun as =>
    let cf := (Map.get? functions as.1).getD Function.ground_zero
    ["cfn=" ++ cf.name,
     "calls=" ++ toString as.2.1 ++ " " ++ toString cf.pc,
     toString f.pc ++ " " ++ toString as.2.2]

theorem foldr_append_eq_flatMap {α β : Type} (g : α → List β) (l : List α) :
    l.foldr (fun a acc => g a ++ acc) [] = l.flatMap g := by
  induction l with
  | nil => rfl
  | cons a l ih => simp [List.foldr_cons, ih]

theorem write_blocks_aux (functions : Functions) (gs : Functions) :
    gs.foldr
      (fun af acc =>
        (if af.1 = GROUND_ZERO then []
         else
          let f := af.2
          ["", "fn=" ++ f.name, toString f.pc ++ " " ++ toString f.cost] ++
          (build_statistics f.calls).foldr
            (fun as acc2 =>
              let cf := (Map.get? functions as.1).getD Function.ground_zero
              ["cfn=" ++ cf.name,
               "calls=" ++ toString as.2.1 ++ " " ++ toString cf.pc,
               toString f.pc ++ " " ++ toString as.2.2] ++ acc2)
            []) ++ acc)
      [] =
    (gs.filter fun af => !(af.1 == GROUND_ZERO)).flatMap
      (fun af => function_block functions af.2) := by
  induction gs with
  | nil => rfl
  | cons af gs ih =>
    rw [List.foldr_cons, ih]
    by_cases haf : af.1 = GROUND_ZERO
    · simp [haf]
    · simp [haf, function_block]
      exact foldr_append_eq_flatMap
        (fun as =>
          ["cfn=" ++ ((Map.get? functions as.1).getD Function.ground_zero).name,
           "calls=" ++ toString as.2.1 ++ " " ++
             toString ((Map.get? functions as.1).getD Function.ground_zero).pc,
           toString af.2.pc ++ " " ++ toString as.2.2])
        (build_statistics af.2.calls)

/-- **C8.** Serializer aggregation and order: grouping a function's
`callEdges` by callee address yields exactly one aggregated record per
distinct callee, in first-seen callee order (keys equal the first-seen
deduplication and are nodup), whose count is the number of edges to that
callee and whose cost is the sum of those edges' inclusive costs; and the
serializer emits one such block per non-root function, in registry insertion
order. -/
theorem c8_serializer_aggregation :
    (∀ calls : List Call,
      ((build_statistics calls).map Prod.fst = first_seen (calls.map Call.address)) ∧
      (((build_statistics calls).map Prod.fst).Nodup) ∧
      (∀ a : Address, Map.get? (build_statistics calls) a =
        (if a ∈ calls.map Call.address
         then some (count_edges calls a, sum_edges calls a) else none))) ∧
    (∀ functions : Functions,
      write_callgrind_functions functions =
        (functions.filter fun af => !(af.1 == GROUND_ZERO)).flatMap
          (fun af => function_block functions af.2)) :=
  ⟨fun calls => ⟨(build_statistics_spec calls).1,
    (build_statistics_spec calls).1 ▸ first_seen_nodup (calls.map Call.address),
    (build_statistics_spec calls).2⟩,
   fun functions => write_blocks_aux functions functions⟩

/-! ## Resolver lemmas -/

theorem list_getD_concat {α : Type} (l : List α) (x : α) (d : α) :
    (l ++ [x]).getD l.length d = x := by
  simp [List.getD_eq_getElem?_getD, List.getElem?_concat_length]

theorem Map.contains_key_eq_false_of_none {α β : Type} [DecidableEq α]
    {m : Map α β} {k : α} (h : Map.get? m k = none) :
    Map.contains_key m k = false := by
  rw [Map.contains_key_eq_isSome, h]
  rfl

theorem Map.contains_key_eq_true_of_some {α β : Type} [DecidableEq α]
    {m : Map α β} {k : α} {v : β} (h : Map.get? m k = some v) :
    Map.contains_key m k = true := by
  rw [Map.contains_key_eq_isSome, h]
  rfl

theorem Resolver.update_found {r : Resolver} {a : Address} (pc : ProgramCounter)
    (h : Map.contains_key r.index_function_by_address a = true) :
    r.update a pc =
      (r.functions.getD ((Map.get? r.index_function_by_address a).getD 0) "", r) := by
  unfold Resolver.update
  simp [h]

theorem Resolver.update_pc_found {r : Resolver} {a : Address} {pc : ProgramCounter}
    (ha : Map.contains_key r.index_function_by_address a = false)
    (hpc : Map.contains_key r.index_function_by_first_pc pc = true) :
    r.update a pc =
      (r.functions.getD ((Map.get? r.index_function_by_first_pc pc).getD 0) "",
       { r with index_function_by_address := (Map.insert r.index_function_by_address a
            ((Map.get? r.index_function_by_first_pc pc).getD 0)) }) := by
  unfold Resolver.update Resolver.contains_function_with_first_pc
  simp [ha, hpc, Map.get?_insert_self]

theorem Resolver.update_fresh {r : Resolver} {a : Address} {pc : ProgramCounter}
    (ha : Map.contains_key r.index_function_by_address a = false)
    (hpc : Map.contains_key r.index_function_by_first_pc pc = false) :
    r.update a pc =
      ("function_" ++ toString r.unresolved_counter ++ " (0x" ++ hex_str a ++ ")",
       { r with
         functions := r.functions ++
           ["function_" ++ toString r.unresolved_counter ++ " (0x" ++ hex_str a ++ ")"]
         index_function_by_address :=
           Map.insert r.index_function_by_address a r.functions.length
         index_function_by_first_pc :=
           Map.insert r.index_function_by_first_pc pc r.functions.length
         unresolved_counter := r.unresolved_counter + 1 }) := by
  unfold Resolver.update Resolver.contains_function_with_first_pc
    Resolver.update_first_pc_index
  simp [ha, hpc, Map.get?_insert_self, list_getD_concat]

/-- **C9.** Copy unification by entry program counter: within one run, if two
different fresh addresses are resolved with the same `entryProgramCounter`,
the second is mapped to the function index already registered for that
program counter and yields the same name as the first (first clause); and
resolving an already-resolved address again yields the same name and leaves
the resolver unchanged (second clause).  The `a ≠ GROUND_ZERO` hypotheses
mirror the source's `assert_ne!(address, GROUND_ZERO)` precondition. -/
theorem c9_copy_unification :
    (∀ (r : Resolver) (a1 a2 : Address) (pc : ProgramCounter),
      a1 ≠ GROUND_ZERO → a2 ≠ GROUND_ZERO → a1 ≠ a2 →
      Map.get? r.index_function_by_address a1 = none →
      Map.get? r.index_function_by_address a2 = none →
      ((r.update a1 pc).2.update a2 pc).1 = (r.update a1 pc).1) ∧
    (∀ (r : Resolver) (a : Address) (pc pc' : ProgramCounter),
      a ≠ GROUND_ZERO →
      (r.update a pc).2.update a pc' = ((r.update a pc).1, (r.update a pc).2)) := by
  constructor
  · intro r a1 a2 pc hg1 hg2 hne h1 h2
    have hc1 : Map.contains_key r.index_function_by_address a1 = false :=
      Map.contains_key_eq_false_of_none h1
    cases hpc : Map.contains_key r.index_function_by_first_pc pc with
    | true =>
      have h2' : Map.get?
          (Map.insert r.index_function_by_address a1
            ((Map.get? r.index_function_by_first_pc pc).getD 0)) a2 = none := by
        rw [Map.get?_insert_ne _ _ _ _ (Ne.symm hne)]
        exact h2
      have key : ∀ r1 : Resolver, r1.functions = r.functions →
          r1.index_function_by_first_pc = r.index_function_by_first_pc →
          Map.contains_key r1.index_function_by_address a2 = false →
          (r1.update a2 pc).1 =
            r.functions.getD ((Map.get? r.index_function_by_first_pc pc).getD 0) "" := by
        intro r1 hf hp hc
        rw [Resolver.update_pc_found hc (by rw [hp]; exact hpc), hf, hp]
      rw [Resolver.update_pc_found hc1 hpc]
      exact key _ rfl rfl (Map.contains_key_eq_false_of_none h2')
    | false =>
      have h2' : Map.get?
          (Map.insert r.index_function_by_address a1 r.functions.length) a2 = none := by
        rw [Map.get?_insert_ne _ _ _ _ (Ne.symm hne)]
        exact h2
      have key : ∀ r1 : Resolver,
          r1.functions = r.functions ++
            ["function_" ++ toString r.unresolved_counter ++ " (0x" ++ hex_str a1 ++ ")"] →
          r1.index_function_by_first_pc =
            Map.insert r.index_function_by_first_pc pc r.functions.length →
          Map.contains_key r1.index_function_by_address a2 = false →
          (r1.update a2 pc).1 =
            "function_" ++ toString r.unresolved_counter ++ " (0x" ++ hex_str a1 ++ ")" := by
        intro r1 hf hp hc
        have hpc1 : Map.contains_key r1.index_function_by_first_pc pc = true := by
          rw [hp]
          exact Map.contains_key_eq_true_of_some (Map.get?_insert_self _ _ _)
        rw [Resolver.update_pc_found hc hpc1, hf, hp, Map.get?_insert_self]
        simp [list_getD_concat]
      rw [Resolver.update_fresh hc1 hpc]
      exact key _ rfl rfl (Map.contains_key_eq_false_of_none h2')
  · intro r a pc pc' hg
    cases ha : Map.contains_key r.index_function_by_address a with
    | true =>
      rw [Resolver.update_found pc ha, Resolver.update_found pc' ha]
    | false =>
      cases hpc : Map.contains_key r.index_function_by_first_pc pc with
      | true =>
        rw [Resolver.update_pc_found ha hpc]
        have ha' : Map.contains_key
            (Map.insert r.index_function_by_address a
              ((Map.get? r.index_function_by_first_pc pc).getD 0)) a = true :=
          Map.contains_key_eq_true_of_some (Map.get?_insert_self _ _ _)
        rw [Resolver.update_found pc' ha']
        rw [Map.get?_insert_self]
        rfl
      | false =>
        rw [Resolver.update_fresh ha hpc]
        have ha' : Map.contains_key
            (Map.insert r.index_function_by_address a r.functions.length) a = true :=
          Map.contains_key_eq_true_of_some (Map.get?_insert_self _ _ _)
        rw [Resolver.update_found pc' ha']
        rw [Map.get?_insert_self]
        simp [list_getD_concat]

/-- Witness for C9: two distinct fresh addresses resolved with entry program
counter 100 on an empty resolver receive the same name, and re-resolving the
first address yields the same name with the resolver unchanged. -/
theorem c9_copy_unification_witness :
    ((({} : Resolver).update 16 100).2.update 32 100).1 =
      (({} : Resolver).update 16 100).1 ∧
    (({} : Resolver).update 16 100).2.update 16 777 =
      ((({} : Resolver).update 16 100).1, (({} : Resolver).update 16 100).2) :=
  ⟨c9_copy_unification.1 {} 16 32 100 (by decide) (by decide) (by decide) rfl rfl,
   c9_copy_unification.2 {} 16 100 777 (by decide)⟩

/-! ## Well-formedness of the active chain (registry coverage) -/

/-- Adjacent-frame linkage: every frame's `caller` field is the address of
the frame that owns it. -/
def callers_ok : Chain → Prop
  | [] => True
  | [_] => True
  | c :: k :: rest => k.caller = c.address ∧ callers_ok (k :: rest)

/-- Registry coverage invariant of a profile under construction: the chain
is never empty, every active frame's address is a key of the registry, and
each frame's `caller` is its parent frame's address. -/
def Profile.wf (p : Profile) : Prop :=
  p.ground ≠ [] ∧
  (∀ c ∈ p.ground, Map.contains_key p.functions c.address = true) ∧
  callers_ok p.ground

theorem exists_concat_of_ne_nil {α : Type} (l : List α) (h : l ≠ []) :
    ∃ front x, l = front ++ [x] :=
  ⟨l.dropLast, l.getLast h, (List.dropLast_append_getLast h).symm⟩

theorem exists_concat_two {α : Type} (l : List α) (h : 2 ≤ l.length) :
    ∃ front x y, l = front ++ [x, y] := by
  have hne : l ≠ [] := by
    cases l with
    | nil => simp at h
    | cons a l => simp
  obtain ⟨f1, y, hy⟩ := exists_concat_of_ne_nil l hne
  have hf1 : f1 ≠ [] := by
    intro hh
    rw [hh] at hy
    rw [hy] at h
    simp at h
  obtain ⟨f2, x, hx⟩ := exists_concat_of_ne_nil f1 hf1
  refine ⟨f2, x, y, ?_⟩
  rw [hy, hx, List.append_assoc]
  rfl

theorem callers_ok_of_same (ch' ch : Chain)
    (haddr : ch'.map Call.address = ch.map Call.address)
    (hcaller : ch'.map Call.caller = ch.map Call.caller)
    (h : callers_ok ch) : callers_ok ch' := by
  induction ch' generalizing ch with
  | nil => trivial
  | cons c' rest' ih =>
    cases ch with
    | nil => simp at haddr
    | cons c rest =>
      simp only [List.map_cons, List.cons.injEq] at haddr hcaller
      cases rest' with
      | nil => trivial
      | cons k' rest'' =>
        cases rest with
        | nil => simp at haddr
        | cons k rest2 =>
          rw [callers_ok] at h ⊢
          simp only [List.map_cons, List.cons.injEq] at haddr hcaller
          exact ⟨hcaller.2.1.trans (h.1.trans haddr.1.symm),
            ih (k :: rest2) (by simp [haddr.2.1, haddr.2.2])
              (by simp [hcaller.2.1, hcaller.2.2]) h.2⟩

theorem callers_ok_init (l : Chain) (x : Call) (h : callers_ok (l ++ [x])) :
    callers_ok l := by
  induction l with
  | nil => trivial
  | cons c rest ih =>
    cases rest with
    | nil => trivial
    | cons k rest' =>
      rw [List.cons_append] at h
      rw [callers_ok]
      rw [List.cons_append] at h
      rw [callers_ok] at h
      exact ⟨h.1, ih h.2⟩

theorem callers_ok_concat_two (front : Chain) (inner x : Call)
    (h : callers_ok (front ++ [inner])) (hx : x.caller = inner.address) :
    callers_ok (front ++ [inner, x]) := by
  induction front with
  | nil => exact ⟨hx, trivial⟩
  | cons c front' ih =>
    cases front' with
    | nil =>
      rw [List.cons_append, List.nil_append] at h ⊢
      rw [callers_ok] at h
      exact ⟨h.1, hx, trivial⟩
    | cons d front'' =>
      rw [List.cons_append, List.cons_append] at h ⊢
      rw [callers_ok] at h
      exact ⟨h.1, ih h.2⟩

theorem callers_ok_last_two (front : Chain) (par popped : Call)
    (h : callers_ok (front ++ [par, popped])) : popped.caller = par.address := by
  induction front with
  | nil => exact h.1
  | cons c front' ih =>
    cases front' with
    | nil => exact h.2.1
    | cons d front'' =>
      rw [List.cons_append] at h
      exact ih h.2

/-- Inversion of a successful cost increment: the chain decomposes as
`front ++ [inner]`, the innermost frame's address is registered with
record `f`, and exactly that frame and that record get one more unit. -/
theorem chain_increment_cost_spec {ch ch' : Chain} {fs fs' : Functions}
    (h : chain_increment_cost ch fs = some (ch', fs')) :
    ∃ front inner f,
      ch = front ++ [inner] ∧
      Map.get? fs inner.address = some f ∧
      ch' = front ++ [{ inner with cost := inner.cost + 1 }] ∧
      fs' = Map.insert fs inner.address f.increment_cost := by
  have hne : ch ≠ [] := by
    intro hh
    rw [hh] at h
    simp [chain_increment_cost] at h
  obtain ⟨front, inner, hdec⟩ := exists_concat_of_ne_nil ch hne
  rw [hdec, chain_increment_cost_eq] at h
  cases hf : Map.get? fs inner.address with
  | none => rw [hf] at h; cases h
  | some f =>
    rw [hf] at h
    cases h
    exact ⟨front, inner, f, hdec, hf, rfl, rfl⟩

/-- Inversion of a successful pop: the chain decomposes as
`front ++ [par, popped]`, the popped frame is the innermost one, its cost is
folded into the parent, and every walked frame's depth drops by one. -/
theorem chain_pop_call_spec {ch : Chain} {res : Call × Chain}
    (h : chain_pop_call ch = some res) :
    ∃ front par popped,
      ch = front ++ [par, popped] ∧
      res = (popped,
        (front.map fun c => { c with depth := c.depth - 1 }) ++
        [{ par with cost := par.cost + popped.cost, depth := par.depth - 1 }]) := by
  have hlen : 2 ≤ ch.length := by
    by_contra hlt
    push_neg at hlt
    interval_cases hl : ch.length
    · rw [List.length_eq_zero] at hl
      rw [hl] at h
      cases h
    · cases ch with
      | nil => cases h
      | cons a t =>
        cases t with
        | nil => cases h
        | cons b t' => simp at hl
  obtain ⟨front, par, popped, hdec⟩ := exists_concat_two ch hlen
  rw [hdec, chain_pop_call_eq] at h
  cases h
  exact ⟨front, par, popped, hdec, rfl⟩

theorem Map.contains_key_insert_existing {α β : Type} [DecidableEq α]
    {m : Map α β} {k : α} (v : β) (h : Map.contains_key m k = true) :
    ∀ a, Map.contains_key (Map.insert m k v) a = Map.contains_key m a := by
  intro a
  rw [Map.contains_key_insert]
  by_cases ha : a = k
  · subst ha; simp [h]
  · simp [ha]

/-- Under the coverage invariant, a cost increment always succeeds and
preserves the invariant (and the chain's addresses). -/
theorem Profile.increment_cost_wf {p : Profile} (hwf : p.wf) :
    ∃ q, p.increment_cost = .ok q ∧ q.wf ∧
      q.ground.map Call.address = p.ground.map Call.address := by
  obtain ⟨hne, haddrs, hcallers⟩ := hwf
  obtain ⟨front, inner, hdec⟩ := exists_concat_of_ne_nil p.ground hne
  have hmem : inner ∈ p.ground := by rw [hdec]; simp
  have hcont := haddrs inner hmem
  cases hf : Map.get? p.functions inner.address with
  | none =>
    rw [Map.contains_key_eq_isSome, hf] at hcont
    cases hcont
  | some f =>
    have hc : chain_increment_cost p.ground p.functions =
        some (front ++ [{ inner with cost := inner.cost + 1 }],
          Map.insert p.functions inner.address f.increment_cost) := by
      rw [hdec, chain_increment_cost_eq, hf]
    refine ⟨_, Profile.increment_cost_eq_some hc, ⟨?_, ?_, ?_⟩, ?_⟩
    · simp
    · intro c hcmem
      have hkeys := Map.contains_key_insert_existing f.increment_cost hcont
      rw [hkeys]
      rw [List.mem_append] at hcmem
      rcases hcmem with hcmem | hcmem
      · exact haddrs c (by rw [hdec]; exact List.mem_append_left _ hcmem)
      · simp only [List.mem_singleton] at hcmem
        subst hcmem
        exact hcont
    · refine callers_ok_of_same _ _ ?_ ?_ (hdec ▸ hcallers) <;> simp
    · rw [hdec]; simp

/-- Pushing preserves the coverage invariant; the pushed address is
registered, and existing registry keys are kept. -/
theorem Profile.push_call_wf {p : Profile} (call : Call) (first_pc : ProgramCounter)
    (hwf : p.wf) : (p.push_call call first_pc).wf := by
  obtain ⟨hne, haddrs, hcallers⟩ := hwf
  obtain ⟨front, inner, hdec⟩ := exists_concat_of_ne_nil p.ground hne
  have hpush : chain_push_call p.ground call =
      (front.map fun c => { c with depth := c.depth + 1 }) ++
      [{ inner with depth := inner.depth + 1 }, { call with caller := inner.address }] := by
    rw [hdec, chain_push_call_eq]
  have hcallers' : callers_ok
      ((front.map fun c => { c with depth := c.depth + 1 }) ++
        [{ inner with depth := inner.depth + 1 }, { call with caller := inner.address }]) := by
    refine callers_ok_concat_two _ _ _ ?_ rfl
    refine callers_ok_of_same _ (front ++ [inner]) ?_ ?_ (hdec ▸ hcallers) <;>
      simp [List.map_map, Function.comp]
  have hmemaddr : ∀ c, c ∈ (front.map fun c => { c with depth := c.depth + 1 }) ++
      [{ inner with depth := inner.depth + 1 }, { call with caller := inner.address }] →
      c.address = call.address ∨ c.address ∈ p.ground.map Call.address := by
    intro c hcmem
    rw [List.mem_append] at hcmem
    rcases hcmem with hcmem | hcmem
    · obtain ⟨d, hd, hdc⟩ := List.mem_map.mp hcmem
      right
      rw [← hdc, hdec]
      exact List.mem_map.mpr ⟨d, List.mem_append_left _ hd, rfl⟩
    · simp only [List.mem_cons, List.not_mem_nil, or_false] at hcmem
      rcases hcmem with hcmem | hcmem
      · right
        rw [hcmem, hdec]
        simp
      · left
        rw [hcmem]
  cases hc : Map.contains_key p.functions call.address with
  | true =>
    rw [Profile.push_call_eq_found first_pc hc]
    refine ⟨by simp [hpush], ?_, by rw [hpush]; exact hcallers'⟩
    intro c hcmem
    rw [hpush] at hcmem
    rcases hmemaddr c hcmem with hca | hca
    · rw [hca]; exact hc
    · obtain ⟨d, hd, hdc⟩ := List.mem_map.mp hca
      rw [← hdc]
      exact haddrs d hd
  | false =>
    rw [Profile.push_call_eq_new first_pc hc]
    refine ⟨by simp [hpush], ?_, by rw [hpush]; exact hcallers'⟩
    intro c hcmem
    rw [hpush] at hcmem
    rw [Map.contains_key_insert]
    rcases hmemaddr c hcmem with hca | hca
    · simp [hca]
    · by_cases hck : c.address = call.address
      · simp [hck]
      · obtain ⟨d, hd, hdc⟩ := List.mem_map.mp hca
        simp only [hck, if_false]
        rw [← hdc]
        exact haddrs d hd

/-- Under the coverage invariant, a pop either hits the empty-stack assert
or succeeds with the invariant preserved; the caller lookup never fails. -/
theorem Profile.pop_call_wf {p : Profile} (hwf : p.wf) :
    p.pop_call = .error .panicEmptyStack ∨
      ∃ q, p.pop_call = .ok q ∧ q.wf := by
  obtain ⟨hne, haddrs, hcallers⟩ := hwf
  cases hc : chain_pop_call p.ground with
  | none => exact Or.inl (Profile.pop_call_eq_none hc)
  | some res =>
    right
    obtain ⟨front, par, popped, hdec, hres⟩ := chain_pop_call_spec hc
    subst hres
    have hcallers2 : callers_ok ((front ++ [par]) ++ [popped]) := by
      rw [List.append_assoc]
      exact hdec ▸ hcallers
    have hground' : callers_ok
        ((front.map fun c => { c with depth := c.depth - 1 }) ++
          [{ par with cost := par.cost + popped.cost, depth := par.depth - 1 }]) := by
      refine callers_ok_of_same _ (front ++ [par]) ?_ ?_
        (callers_ok_init _ _ hcallers2) <;>
        simp [List.map_map, Function.comp]
    have haddrs' : ∀ c ∈ (front.map fun c => { c with depth := c.depth - 1 }) ++
        [{ par with cost := par.cost + popped.cost, depth := par.depth - 1 }],
        Map.contains_key p.functions c.address = true := by
      intro c hcmem
      rw [List.mem_append] at hcmem
      rcases hcmem with hcmem | hcmem
      · obtain ⟨d, hd, hdc⟩ := List.mem_map.mp hcmem
        rw [← hdc]
        exact haddrs d (by rw [hdec]; exact List.mem_append_left _ hd)
      · simp only [List.mem_singleton] at hcmem
        subst hcmem
        exact haddrs par (by rw [hdec]; simp)
    cases hgr : popped.is_ground with
    | true =>
      refine ⟨_, Profile.pop_call_eq_ground hc hgr, by simp, haddrs', hground'⟩
    | false =>
      have hcaller : popped.caller = par.address :=
        callers_ok_last_two front par popped (hdec ▸ hcallers)
      have hparmem : par ∈ p.ground := by rw [hdec]; simp
      have hcont := haddrs par hparmem
      cases hf : Map.get? p.functions popped.caller with
      | none =>
        rw [← hcaller, Map.contains_key_eq_isSome, hf] at hcont
        cases hcont
      | some f =>
        refine ⟨_, Profile.pop_call_eq_edge hc hgr hf, by simp, ?_, hground'⟩
        intro c hcmem
        have hcontc : Map.contains_key p.functions popped.caller = true := by
          rw [hcaller]; exact hcont
        rw [Map.contains_key_insert_existing (f.add_call popped) hcontc]
        exact haddrs' c hcmem

theorem Profile.new_wf (file : String) (dump : Resolver) :
    (Profile.new file dump).wf := by
  refine ⟨by simp [Profile.new], ?_, trivial⟩
  intro c hc
  simp only [Profile.new, List.mem_singleton] at hc
  subst hc
  simp [Map.contains_key, Map.insert, Call.new]

/-- Along any parse from a well-formed profile, no registry lookup ever
fails, and a returned profile is well-formed again. -/
theorem parse_trace_file_wf (lines : List LineClass) :
    ∀ p : Profile, p.wf →
      is_lookup_panic (parse_trace_file lines p) = false ∧
      ∀ q, parse_trace_file lines p = .ok q → q.wf := by
  induction lines with
  | nil =>
    intro p hwf
    refine ⟨rfl, fun q h => ?_⟩
    rw [parse_nil] at h
    cases h
    exact hwf
  | cons head tail ih =>
    intro p hwf
    cases head with
    | skip => rw [parse_skip]; exact ih p hwf
    | fail => exact ⟨rfl, fun q h => by rw [parse_fail] at h; cases h⟩
    | exit =>
      obtain ⟨p1, h1, hwf1, _⟩ := Profile.increment_cost_wf hwf
      rw [parse_exit, h1, except_bind_ok]
      rcases Profile.pop_call_wf hwf1 with h2 | ⟨p2, h2, hwf2⟩
      · rw [h2, except_bind_error]
        exact ⟨rfl, fun q h => by cases h⟩
      · rw [h2, except_bind_ok]
        exact ih p2 hwf2
    | other pc =>
      obtain ⟨p1, h1, hwf1, _⟩ := Profile.increment_cost_wf hwf
      rw [parse_other, h1, except_bind_ok]
      exact ih p1 hwf1
    | call pc target =>
      obtain ⟨p1, h1, hwf1, _⟩ := Profile.increment_cost_wf hwf
      rw [parse_call, h1, except_bind_ok]
      have hwf2 := Profile.push_call_wf (Call.new target) pc hwf1
      cases tail with
      | nil => exact ⟨rfl, fun q h => by cases h⟩
      | cons head' tail' =>
        cases head' with
        | skip => exact ⟨rfl, fun q h => by cases h⟩
        | fail => exact ⟨rfl, fun q h => by cases h⟩
        | exit => exact ih _ hwf2
        | other pc' => exact ih _ hwf2
        | call pc' target' => exact ih _ hwf2

/-- **C10.** Registry coverage: at every point during parsing every active
frame's address is a key of the function registry (push registers the pushed
address before any later attribution) and each frame's `caller` is its
parent frame's address; hence the registry lookups of cost attribution (the
innermost frame's address) and of pop (the popped frame's caller) always
succeed — starting from a fresh profile, the parse loop can never end in one
of the two lookup-`expect` panics, and any returned profile satisfies the
coverage invariant. -/
theorem c10_registry_coverage :
    (∀ (lines : List LineClass) (file : String) (dump : Resolver),
      is_lookup_panic (parse_trace_file lines (Profile.new file dump)) = false) ∧
    (∀ (lines : List LineClass) (file : String) (dump : Resolver) (q : Profile),
      parse_trace_file lines (Profile.new file dump) = .ok q →
      q.ground ≠ [] ∧
      (∀ c ∈ q.ground, Map.contains_key q.functions c.address = true) ∧
      callers_ok q.ground) :=
  ⟨fun lines file dump =>
    (parse_trace_file_wf lines _ (Profile.new_wf file dump)).1,
   fun lines file dump q h =>
    (parse_trace_file_wf lines _ (Profile.new_wf file dump)).2 q h⟩

/-- Witness for C10: a concrete nested trace parses with no lookup panic and
a well-formed result. -/
theorem c10_registry_coverage_witness :
    is_lookup_panic (parse_trace_file [.call 100 0x10, .call 5 0x20, .exit, .exit]
      (Profile.new "w" {})) = false ∧
    ∃ q : Profile,
      parse_trace_file [.call 100 0x10, .call 5 0x20, .exit, .exit]
        (Profile.new "w" {}) = .ok q ∧
      (q.ground ≠ [] ∧
       (∀ c ∈ q.ground, Map.contains_key q.functions c.address = true) ∧
       callers_ok q.ground) :=
  ⟨c10_registry_coverage.1 [.call 100 0x10, .call 5 0x20, .exit, .exit] "w" {},
   ⟨_, rfl, c10_registry_coverage.2 [.call 100 0x10, .call 5 0x20, .exit, .exit]
      "w" {} _ rfl⟩⟩

/-! ## Grand-total accounting -/

theorem chain_cost_concat (front : Chain) (x : Call) :
    chain_cost (front ++ [x]) = chain_cost front + x.cost := by
  simp [chain_cost]

theorem chain_cost_concat_two (front : Chain) (x y : Call) :
    chain_cost (front ++ [x, y]) = chain_cost front + x.cost + y.cost := by
  simp [chain_cost]
  omega

theorem chain_cost_map_dec (front : Chain) :
    chain_cost (front.map fun c => { c with depth := c.depth - 1 }) =
      chain_cost front := by
  unfold chain_cost
  rw [List.map_map]
  rfl

theorem chain_cost_map_bump (front : Chain) :
    chain_cost (front.map fun c => { c with depth := c.depth + 1 }) =
      chain_cost front := by
  unfold chain_cost
  rw [List.map_map]
  rfl

theorem Function.total_cost_eq (f : Function) :
    f.total_cost = f.cost + (f.calls.map Call.cost).sum := by
  unfold Function.total_cost
  generalize f.cost = n
  induction f.calls generalizing n with
  | nil => simp
  | cons c rest ih =>
    rw [List.foldl_cons, ih, List.map_cons, List.sum_cons]
    omega

/-- Root accounting invariant: the chain's head is the root sentinel frame,
no other active frame carries the reserved address, and the root frame's
cost field always equals the root record's exclusive cost plus the inclusive
costs of its completed top-level calls (the value `total_cost` reports). -/
def root_inv (p : Profile) : Prop :=
  (p.ground.head?.map Call.address = some GROUND_ZERO) ∧
  (∀ c ∈ p.ground.tail, c.address ≠ GROUND_ZERO) ∧
  ∃ gzf, Map.get? p.functions GROUND_ZERO = some gzf ∧
    p.ground.head?.map Call.cost = some (gzf.cost + (gzf.calls.map Call.cost).sum)

/-- Combined invariant for the grand-total argument. -/
def c6_inv (p : Profile) : Prop := p.wf ∧ root_inv p

theorem c6_inv_increment {p q : Profile} (hinv : c6_inv p)
    (h : p.increment_cost = .ok q) :
    c6_inv q ∧ chain_cost q.ground = chain_cost p.ground + 1 := by
  obtain ⟨hwf, hhead, htail, gzf, hgz, hcost⟩ := hinv
  have hwfq : q.wf := by
    obtain ⟨q', h', hwf', _⟩ := Profile.increment_cost_wf hwf
    rw [h] at h'
    cases h'
    exact hwf'
  obtain ⟨front, inner, hdec⟩ := exists_concat_of_ne_nil p.ground hwf.1
  have hcont := hwf.2.1 inner (by rw [hdec]; simp)
  cases hf : Map.get? p.functions inner.address with
  | none =>
    rw [Map.contains_key_eq_isSome, hf] at hcont
    cases hcont
  | some f =>
    have hc : chain_increment_cost p.ground p.functions =
        some (front ++ [{ inner with cost := inner.cost + 1 }],
          Map.insert p.functions inner.address f.increment_cost) := by
      rw [hdec, chain_increment_cost_eq, hf]
    rw [Profile.increment_cost_eq_some hc] at h
    cases h
    have hccost : chain_cost (front ++ [{ inner with cost := inner.cost + 1 }]) =
        chain_cost p.ground + 1 := by
      rw [hdec, chain_cost_concat, chain_cost_concat]
      show chain_cost front + (inner.cost + 1) = chain_cost front + inner.cost + 1
      omega
    refine ⟨⟨hwfq, ?_⟩, hccost⟩
    cases front with
    | nil =>
      rw [hdec] at hhead hcost
      simp only [List.nil_append, List.head?_cons, Option.map_some',
        Option.some.injEq] at hhead hcost
      have hfgz : f = gzf := by
        rw [hhead] at hf
        rw [hf] at hgz
        exact Option.some.inj hgz
      refine ⟨by simp [hhead], by simp, f.increment_cost, ?_, ?_⟩
      · show Map.get? (Map.insert p.functions inner.address f.increment_cost)
          GROUND_ZERO = some f.increment_cost
        rw [hhead, Map.get?_insert_self]
      · show Option.map Call.cost (List.head? [{ inner with cost := inner.cost + 1 }]) =
          some (f.increment_cost.cost + (f.increment_cost.calls.map Call.cost).sum)
        simp [Function.increment_cost, hfgz]
        omega
    | cons c front' =>
      rw [hdec] at hhead htail hcost
      have hinner_tail : inner ∈ (c :: (front' ++ [inner])).tail := by simp
      have hia : inner.address ≠ GROUND_ZERO := htail inner hinner_tail
      refine ⟨?_, ?_, gzf, ?_, ?_⟩
      · simpa using hhead
      · intro d hd
        simp only [List.cons_append, List.tail_cons] at hd ⊢
        rw [List.mem_append] at hd
        rcases hd with hd | hd
        · exact htail d (by simp [hd])
        · simp only [List.mem_singleton] at hd
          subst hd
          exact hia
      · show Map.get? (Map.insert p.functions inner.address f.increment_cost)
          GROUND_ZERO = some gzf
        rw [Map.get?_insert_ne _ _ _ _ (Ne.symm hia)]
        exact hgz
      · simpa using hcost

theorem c6_inv_push {p : Profile} (target : Address) (pc : ProgramCounter)
    (hinv : c6_inv p) (htarget : target ≠ GROUND_ZERO) :
    c6_inv (p.push_call (Call.new target) pc) ∧
    chain_cost (p.push_call (Call.new target) pc).ground = chain_cost p.ground := by
  obtain ⟨hwf, hhead, htail, gzf, hgz, hcost⟩ := hinv
  have hwfq := Profile.push_call_wf (Call.new target) pc hwf
  obtain ⟨front, inner, hdec⟩ := exists_concat_of_ne_nil p.ground hwf.1
  have hpush : chain_push_call p.ground (Call.new target) =
      (front.map fun c => { c with depth := c.depth + 1 }) ++
      [{ inner with depth := inner.depth + 1 },
       { Call.new target with caller := inner.address }] := by
    rw [hdec, chain_push_call_eq]
  have hground' : (p.push_call (Call.new target) pc).ground =
      chain_push_call p.ground (Call.new target) := by
    unfold Profile.push_call
    cases hcont : Map.contains_key p.functions (Call.new target).address <;> simp [hcont]
  have hgz' : Map.get? (p.push_call (Call.new target) pc).functions GROUND_ZERO =
      some gzf := by
    unfold Profile.push_call
    cases hcont : Map.contains_key p.functions (Call.new target).address with
    | true => simpa [hcont] using hgz
    | false =>
      simp only [hcont, Bool.false_eq_true, if_false]
      show Map.get? (Map.insert p.functions (Call.new target).address
        (Function.new (Call.new target).address pc p.dump).1) GROUND_ZERO = some gzf
      rw [show (Call.new target).address = target from rfl]
      rw [Map.get?_insert_ne _ _ _ _ (Ne.symm htarget)]
      exact hgz
  have hcc : chain_cost (p.push_call (Call.new target) pc).ground =
      chain_cost p.ground := by
    rw [hground', hpush, hdec, chain_cost_concat_two, chain_cost_map_bump,
      chain_cost_concat]
    simp [Call.new]
  refine ⟨⟨hwfq, ?_, ?_, gzf, hgz', ?_⟩, hcc⟩
  · rw [hground', hpush]
    cases front with
    | nil =>
      rw [hdec] at hhead
      simpa using hhead
    | cons c front' =>
      rw [hdec] at hhead
      simpa using hhead
  · rw [hground', hpush]
    intro d hd
    cases front with
    | nil =>
      rw [hdec] at htail
      simp only [List.map_nil, List.nil_append, List.tail_cons,
        List.mem_singleton] at hd
      subst hd
      exact htarget
    | cons c front' =>
      rw [hdec] at htail
      simp only [List.map_cons, List.cons_append, List.tail_cons] at hd
      rw [List.mem_append] at hd
      rcases hd with hd | hd
      · obtain ⟨e, he, hed⟩ := List.mem_map.mp hd
        rw [← hed]
        exact htail e (by simp [he])
      · simp only [List.mem_cons, List.not_mem_nil, or_false] at hd
        rcases hd with hd | hd
        · subst hd
          exact htail inner (by simp)
        · subst hd
          exact htarget
  · rw [hground', hpush]
    cases front with
    | nil =>
      rw [hdec] at hcost
      simpa using hcost
    | cons c front' =>
      rw [hdec] at hcost
      simpa using hcost

theorem c6_inv_pop {p q : Profile} (hinv : c6_inv p) (h : p.pop_call = .ok q) :
    c6_inv q ∧ chain_cost q.ground = chain_cost p.ground := by
  obtain ⟨hwf, hhead, htail, gzf, hgz, hcost⟩ := hinv
  have hwfq : q.wf := by
    rcases Profile.pop_call_wf hwf with herr | ⟨q', h', hwf'⟩
    · rw [h] at herr; cases herr
    · rw [h] at h'
      cases h'
      exact hwf'
  cases hc : chain_pop_call p.ground with
  | none =>
    rw [Profile.pop_call_eq_none hc] at h
    cases h
  | some res =>
    obtain ⟨front, par, popped, hdec, hres⟩ := chain_pop_call_spec hc
    subst hres
    have hpop_tail : popped ∈ p.ground.tail := by
      rw [hdec]
      cases front <;> simp
    have hpa : popped.address ≠ GROUND_ZERO := htail popped hpop_tail
    have hgr : popped.is_ground = false := by
      simp [Call.is_ground]
      exact hpa
    have hcaller : popped.caller = par.address :=
      callers_ok_last_two front par popped (hdec ▸ hwf.2.2)
    have hparmem : par ∈ p.ground := by rw [hdec]; simp
    have hcont := hwf.2.1 par hparmem
    cases hf : Map.get? p.functions popped.caller with
    | none =>
      rw [← hcaller, Map.contains_key_eq_isSome, hf] at hcont
      cases hcont
    | some f =>
      rw [Profile.pop_call_eq_edge hc hgr hf] at h
      cases h
      have hcc : chain_cost
          ((front.map fun c => { c with depth := c.depth - 1 }) ++
            [{ par with cost := par.cost + popped.cost, depth := par.depth - 1 }]) =
          chain_cost p.ground := by
        rw [chain_cost_concat, chain_cost_map_dec, hdec, chain_cost_concat_two]
        simp
        omega
      refine ⟨⟨hwfq, ?_⟩, hcc⟩
      cases front with
      | nil =>
        rw [hdec] at hhead hcost
        simp only [List.nil_append, List.head?_cons, Option.map_some',
          Option.some.injEq] at hhead hcost
        have hfgz : f = gzf := by
          rw [hcaller, hhead] at hf
          rw [hf] at hgz
          exact Option.some.inj hgz
        refine ⟨by simp [hhead], by simp, f.add_call popped, ?_, ?_⟩
        · show Map.get? (Map.insert p.functions popped.caller (f.add_call popped))
            GROUND_ZERO = some (f.add_call popped)
          rw [hcaller, hhead, Map.get?_insert_self]
        · show Option.map Call.cost (List.head?
            [{ par with cost := par.cost + popped.cost, depth := par.depth - 1 }]) =
              some ((f.add_call popped).cost +
                ((f.add_call popped).calls.map Call.cost).sum)
          simp [Function.add_call, hfgz]
          omega
      | cons c front' =>
        rw [hdec] at hhead htail hcost
        have hpar_tail : par ∈ (c :: (front' ++ [par, popped])).tail := by simp
        have hpar_ne : par.address ≠ GROUND_ZERO := htail par hpar_tail
        refine ⟨?_, ?_, gzf, ?_, ?_⟩
        · simpa using hhead
        · intro d hd
          simp only [List.map_cons, List.cons_append, List.tail_cons] at hd
          rw [List.mem_append] at hd
          rcases hd with hd | hd
          · obtain ⟨e, he, hed⟩ := List.mem_map.mp hd
            rw [← hed]
            exact htail e (by simp [he])
          · simp only [List.mem_singleton] at hd
            subst hd
            exact hpar_ne
        · rw [hcaller, Map.get?_insert_ne _ _ _ _ (Ne.symm hpar_ne)]
          exact hgz
        · simpa using hcost

theorem c6_inv_new (file : String) (dump : Resolver) : c6_inv (Profile.new file dump) := by
  refine ⟨Profile.new_wf file dump, rfl, ?_, Function.ground_zero, ?_, rfl⟩
  · intro c hc
    simp [Profile.new] at hc
  · simp [Profile.new, Map.insert, Map.get?]

/-- Along an accepted parse with no call targeting the reserved root
address, the combined invariant is preserved and the chain's total frame
cost grows by exactly the number of non-`Skip` lines. -/
theorem parse_trace_file_c6 (lines : List LineClass) :
    ∀ p : Profile, c6_inv p →
      (∀ pc a, LineClass.call pc a ∈ lines → a ≠ GROUND_ZERO) →
      ∀ q, parse_trace_file lines p = .ok q →
        c6_inv q ∧ chain_cost q.ground = chain_cost p.ground + count_non_skip lines := by
  induction lines with
  | nil =>
    intro p hinv hGZ q h
    rw [parse_nil] at h
    cases h
    exact ⟨hinv, by rw [count_non_skip]; omega⟩
  | cons head tail ih =>
    intro p hinv hGZ q h
    have hGZtail : ∀ pc a, LineClass.call pc a ∈ tail → a ≠ GROUND_ZERO :=
      fun pc a ha => hGZ pc a (List.mem_cons_of_mem _ ha)
    cases head with
    | skip =>
      rw [parse_skip] at h
      rw [count_non_skip]
      exact ih p hinv hGZtail q h
    | fail => rw [parse_fail] at h; cases h
    | exit =>
      rw [parse_exit] at h
      cases h1 : p.increment_cost with
      | error e => rw [h1, except_bind_error] at h; cases h
      | ok p1 =>
        rw [h1, except_bind_ok] at h
        obtain ⟨hinv1, hcc1⟩ := c6_inv_increment hinv h1
        cases h2 : p1.pop_call with
        | error e => rw [h2, except_bind_error] at h; cases h
        | ok p2 =>
          rw [h2, except_bind_ok] at h
          obtain ⟨hinv2, hcc2⟩ := c6_inv_pop hinv1 h2
          obtain ⟨hinvq, hccq⟩ := ih p2 hinv2 hGZtail q h
          rw [count_non_skip]
          exact ⟨hinvq, by omega⟩
    | other pc =>
      rw [parse_other] at h
      cases h1 : p.increment_cost with
      | error e => rw [h1, except_bind_error] at h; cases h
      | ok p1 =>
        rw [h1, except_bind_ok] at h
        obtain ⟨hinv1, hcc1⟩ := c6_inv_increment hinv h1
        obtain ⟨hinvq, hccq⟩ := ih p1 hinv1 hGZtail q h
        rw [count_non_skip]
        exact ⟨hinvq, by omega⟩
    | call pc target =>
      rw [parse_call] at h
      have htarget : target ≠ GROUND_ZERO := hGZ pc target (by simp)
      cases h1 : p.increment_cost with
      | error e => rw [h1, except_bind_error] at h; cases h
      | ok p1 =>
        rw [h1, except_bind_ok] at h
        obtain ⟨hinv1, hcc1⟩ := c6_inv_increment hinv h1
        obtain ⟨hinv2, hcc2⟩ := c6_inv_push target pc hinv1 htarget
        rw [count_non_skip]
        cases tail with
        | nil => cases h
        | cons head' tail' =>
          cases head' with
          | skip => cases h
          | fail => cases h
          | exit =>
            obtain ⟨hinvq, hccq⟩ := ih _ hinv2 hGZtail q h
            exact ⟨hinvq, by omega⟩
          | other pc' =>
            obtain ⟨hinvq, hccq⟩ := ih _ hinv2 hGZtail q h
            exact ⟨hinvq, by omega⟩
          | call pc' target' =>
            obtain ⟨hinvq, hccq⟩ := ih _ hinv2 hGZtail q h
            exact ⟨hinvq, by omega⟩

/-- **C6 counterexample.** The trace `call 0x10; other` is accepted with one
unclosed frame, processes 2 non-`Skip` lines, yet leaves the root frame's
cost field at 1, and the serializer's `totals:` line reports 1 — refuting
the claim for traces that end with unclosed frames. -/
theorem c6_unclosed_frames_counterexample :
    ∃ prof : Profile,
      parse_trace_file [.call 100 0x10, .other 101] (Profile.new "trace" {}) =
        .ok prof ∧
      count_non_skip [.call 100 0x10, .other 101] = 2 ∧
      prof.ground.head?.map Call.cost = some 1 ∧
      ((Map.get? prof.functions GROUND_ZERO).getD Function.ground_zero).total_cost = 1 ∧
      prof.write_callgrind.getD 4 "" = "totals: 1" :=
  ⟨_, rfl, rfl, rfl, rfl, rfl⟩

/-- **C6 (amended).** For every trace accepted by the parse loop **whose
frames are all closed at the end** (the final chain is the root frame alone)
and whose calls never target the reserved root address, the root frame's
cost equals the trace's total instruction count (the number of non-`Skip`
lines), and the serializer's `totals:` header line carries that same value
(it emits the root record's `total_cost`, which the invariant keeps equal to
the root frame's cost).  For traces ending with unclosed frames — accepted
rather than rejected — the instructions inside the still-open frames are
missing from both figures. -/
theorem c6_grand_total_amended (lines : List LineClass) (file : String)
    (dump : Resolver) (q : Profile) (g : Call)
    (hGZ : ∀ pc a, LineClass.call pc a ∈ lines → a ≠ GROUND_ZERO)
    (h : parse_trace_file lines (Profile.new file dump) = .ok q)
    (hclosed : q.ground = [g]) :
    g.cost = count_non_skip lines ∧
    ((Map.get? q.functions GROUND_ZERO).getD Function.ground_zero).total_cost =
      count_non_skip lines ∧
    q.write_callgrind =
      ["# callgrind format", "version: 1", "creator: bpf-profile",
       "events: Instructions",
       "totals: " ++ toString (count_non_skip lines), "fl=" ++ q.file] ++
      write_callgrind_functions q.functions := by
  obtain ⟨⟨hwfq, hhead, htail, gzf, hgz, hcost⟩, hcc⟩ :=
    parse_trace_file_c6 lines (Profile.new file dump) (c6_inv_new file dump) hGZ q h
  rw [hclosed] at hhead hcost hcc
  simp only [List.head?_cons, Option.map_some', Option.some.injEq] at hhead hcost
  have hinit : chain_cost (Profile.new file dump).ground = 0 := rfl
  rw [hinit] at hcc
  have hgcost : chain_cost [g] = g.cost := by simp [chain_cost]
  have hg : g.cost = count_non_skip lines := by omega
  have htot : ((Map.get? q.functions GROUND_ZERO).getD Function.ground_zero).total_cost =
      count_non_skip lines := by
    rw [hgz]
    simp only [Option.getD_some]
    rw [Function.total_cost_eq]
    omega
  refine ⟨hg, htot, ?_⟩
  unfold Profile.write_callgrind
  rw [htot]

/-- Witness for C6: the closed trace `call 0x10; other; exit` gives root
cost 3, grand total 3, and the `totals: 3` header line. -/
theorem c6_grand_total_amended_witness :
    ∃ (q : Profile) (g : Call),
      parse_trace_file [.call 100 0x10, .other 101, .exit]
        (Profile.new "trace" {}) = .ok q ∧
      q.ground = [g] ∧
      (g.cost = count_non_skip [.call 100 0x10, .other 101, .exit] ∧
       ((Map.get? q.functions GROUND_ZERO).getD Function.ground_zero).total_cost =
         count_non_skip [.call 100 0x10, .other 101, .exit] ∧
       q.write_callgrind =
         ["# callgrind format", "version: 1", "creator: bpf-profile",
          "events: Instructions",
          "totals: " ++ toString (count_non_skip [.call 100 0x10, .other 101, .exit]),
          "fl=" ++ q.file] ++
         write_callgrind_functions q.functions) :=
  ⟨_, _, rfl, rfl,
    c6_grand_total_amended [.call 100 0x10, .other 101, .exit] "trace" {} _ _
      (by
        intro pc a ha
        simp only [List.mem_cons, List.not_mem_nil, or_false] at ha
        rcases ha with ha | ha | ha
        · cases ha; decide
        · cases ha
        · cases ha)
      rfl rfl⟩

end BpfProfile
